import Mathlib

/-!
# Verification of the speck-server core (src/speck-server.py)

Shallow embedding of the speck visualizer's core pipeline:

* the dependency sorter `sort_children` (server-side Python),
* the recursive parser `parse_module` / `parse_speck_tree`,
* the layout passes `computeSize` / `computePositions` (client-side JS),
* the visibility engine `isModVisible` / `isFnVisible` / `resolveVisible`
  and the expand/collapse handlers,
* the router `connectionPoints` / `orthogonalPath` / `findBlockingBoxes` /
  `reroutedPath` / `computeArrowPath`.

Modelling conventions:

* Python/JS strings holding module paths are kept as `String` where the code
  manipulates them as opaque dictionary keys (the sorter), and as segment
  lists `List String` where the code repeatedly splits on `"/"`
  (the client-side visibility engine).  Segment names produced by the parser
  match `\w+`, so they contain neither `"/"` nor `"::"`, which makes both
  encodings faithful.
* Python dicts updated in loops are modelled as total functions updated
  pointwise (`updf`), with the dict's default where the code uses `.get`.
* The unbounded `while queue:` loop of the sorter is modelled with fuel
  `children.length + 1`; every queue insertion corresponds either to an
  initial zero-in-degree slot or to the unique moment a slot's in-degree
  reaches zero, so the Python loop runs at most `children.length` times and
  the fuel is never exhausted.
* Geometry is over `ℚ` (the JS arithmetic involved is +, -, *, /2, min, max
  on exact values; no rounding occurs in the modelled code paths).
-/

namespace Speck

/-- Pointwise update of a function modelling a Python dict entry assignment. -/
def updf {α : Type} (f : String → α) (k : String) (v : α) : String → α :=
  fun x => if x = k then v else f x

/-- Helper for `lastSeg`: scan the characters, restarting the accumulator at
each `/` (structurally recursive so that the kernel can evaluate it). -/
def lastSegAux : List Char → List Char → List Char
  | [], acc => acc
  | c :: rest, acc => if c = '/' then lastSegAux rest [] else lastSegAux rest (acc ++ [c])

/-- `cp.split("/")[-1]`: the last `/`-separated component of a path string. -/
def lastSeg (s : String) : String :=
  ⟨lastSegAux s.data []⟩

/-- `name_to_path = {cp.split("/")[-1]: cp for cp in children}` followed by
`.get(d)`: the dict comprehension lets the last occurrence win, so lookup
finds the last child whose final segment is `d`. -/
def nameToPath (children : List String) (d : String) : Option String :=
  children.reverse.find? (fun cp => decide (lastSeg cp = d))

/-- The in-degree map and adjacency map built by `sort_children` before the
Kahn loop (`in_deg` / `adj` in the source). -/
structure DepGraph where
  ind : String → Int
  adj : String → List String

/-- The body of the inner dependency loop of `sort_children`: resolve one
declared dependency name of `cp` and, if present among the siblings, append
the edge to `adj[cp]` and bump the dependency's in-degree
(`if dep_path: adj[cp].append(dep_path); in_deg[dep_path] += 1`). -/
def depStep (children : List String) (cp : String) (g2 : DepGraph)
    (depName : String) : DepGraph :=
  match nameToPath children depName with
  | none => g2
  | some dp => ⟨updf g2.ind dp (g2.ind dp + 1), updf g2.adj cp (g2.adj cp ++ [dp])⟩

/-- One iteration of the outer graph-building loop of `sort_children`: for
each declared dependency name of `cp`, resolve it among the siblings and, if
present, record the edge and bump the dependency's in-degree. -/
def buildStep (children : List String) (deps : String → List String)
    (g : DepGraph) (cp : String) : DepGraph :=
  (deps (lastSeg cp)).foldl (depStep children cp) g

/-- The in-degree/adjacency graph of `sort_children` (lines 28–36). -/
def buildGraph (children : List String) (deps : String → List String) : DepGraph :=
  children.foldl (buildStep children deps) ⟨fun _ => 0, fun _ => []⟩

/-- The adjacency map of the sorter's dependency graph, as a function. -/
def adjOf (children : List String) (deps : String → List String) : String → List String :=
  (buildGraph children deps).adj

/-- The inner loop of the Kahn phase: `for dep in adj[node]: in_deg[dep] -= 1;
if in_deg[dep] == 0: queue.append(dep)`. -/
def processDeps : List String → (String → Int) × List String → (String → Int) × List String
  | [], s => s
  | dep :: rest, s =>
    let v := s.1 dep - 1
    let ind1 := updf s.1 dep v
    let q1 := if v = 0 then s.2 ++ [dep] else s.2
    processDeps rest (ind1, q1)

/-- The `while queue:` loop of `sort_children` (lines 40–46), with fuel.
Each iteration pops the queue head into the result and processes its
adjacency list.  Fuel `children.length + 1` always suffices (see module
docstring), so the fuel-out branch is never taken on the sorter's inputs. -/
def kahnLoop (adj : String → List String) :
    Nat → List String → (String → Int) → List String → List String
  | 0, _, _, res => res
  | _ + 1, [], _, res => res
  | f + 1, node :: q, ind, res =>
    let s := processDeps (adj node) (ind, q)
    kahnLoop adj f s.2 s.1 (res ++ [node])

/-- The Kahn phase of `sort_children`: initial queue of zero-in-degree
siblings, then the elimination loop.  Returns the cleanly sorted nodes. -/
def kahnPhase (children : List String) (deps : String → List String) : List String :=
  let g := buildGraph children deps
  kahnLoop g.adj (children.length + 1)
    (children.filter (fun cp => decide (g.ind cp = 0))) g.ind []

/-- `sort_children(children, child_deps)` (lines 24–52): Kahn phase followed
by the fallback loop `for cp in children: if cp not in result:
result.append(cp)`. -/
def sort_children (children : List String) (deps : String → List String) : List String :=
  children.foldl (fun res cp => if cp ∈ res then res else res ++ [cp])
    (kahnPhase children deps)

/-- The list of sibling paths that one outer-loop iteration for `cp` appends
to `adj[cp]` (its declared dependency names resolved among the siblings). -/
def resolvedDeps (children : List String) (deps : String → List String)
    (cp : String) : List String :=
  (deps (lastSeg cp)).filterMap (fun d => nameToPath children d)

/-- Total number of recorded dependency edges pointing at `v` from the nodes
of `l` (with multiplicity): the quantity tracked by `in_deg[v]`. -/
def countIn (l : List String) (adj : String → List String) (v : String) : Nat :=
  (l.map (fun u => (adj u).count v)).sum

/-- `u` occurs strictly before `v` in the list `l`. -/
def before (u v : String) (l : List String) : Prop :=
  ∃ l₁ l₂ l₃, l = l₁ ++ u :: (l₂ ++ v :: l₃)

/-- Executable test for `before`. -/
def beforeB (u v : String) : List String → Bool
  | [] => false
  | x :: xs => (decide (x = u) && decide (v ∈ xs)) || beforeB u v xs

/-- The invariant carried around the Kahn elimination loop of
`sort_children`, relating the pending queue, the emitted result and the
current in-degree map to the initial graph (`ind0`, `adj`). -/
def KahnInv (children : List String) (adj : String → List String)
    (ind0 ind : String → Int) (queue res : List String) : Prop :=
  (res ++ queue).Nodup ∧
  (∀ x ∈ res ++ queue, x ∈ children) ∧
  (∀ x ∈ res ++ queue, ind x ≤ 0) ∧
  (∀ v, ind v = ind0 v - (countIn res adj v : Int)) ∧
  (∀ v ∈ queue, ∀ u, v ∈ adj u → u ∈ res) ∧
  (∀ v ∈ children, v ∉ res ++ queue → 1 ≤ ind v) ∧
  (∀ v ∈ res, ∀ u, v ∈ adj u → before u v res)

/-! ## Parser model (`parse_module` / `parse_speck_tree`, lines 55–123)

The regex scanners of `parse_module` are modelled by taking a file's content
as the sequence of declarations they extract: `mods` is the list of
`(name, dependency-names)` pairs produced by the `mod \w+ { ... }` matches
in order, and `fns` the list of `(name, call-references)` pairs produced by
the `def \w+ (...) -> ... { body }` matches, each call reference being the
`(path, name)` pair of a path`::`name match in the body (paths drawn from
word characters, dots, slashes and dashes).  The file system
is a directory tree: each directory carries the optional content of its own
`.speck` file (`none` when the file does not exist) and its named
subdirectories. -/

/-- The declarations the regex scanners extract from one `.speck` file. -/
structure FileContent where
  mods : List (String × List String)
  fns : List (String × List (String × String))
deriving DecidableEq

/-- A directory of the source tree: its own `.speck` file's scanned content
(`none` when missing) and its subdirectories, keyed by name. -/
inductive FTree where
  | node (content : Option FileContent) (sub : List (String × FTree))

/-- The value stored in the `modules` dict for one module. -/
structure ModuleEntry where
  name : String
  path : String
  children : List String
  functions : List String
  depth : Nat
deriving DecidableEq

/-- The accumulator state shared by the recursive walk: the `modules` dict
(as an insertion-ordered association list) and the `function_edges` list. -/
structure PState where
  modules : List (String × ModuleEntry)
  edges : List ((String × String) × (String × String))
deriving DecidableEq

/-- `dir / name / f"{name}.speck"`: look up a subdirectory by name; a missing
directory behaves like a directory whose `.speck` file does not exist. -/
def findSub (sub : List (String × FTree)) (n : String) : FTree :=
  match sub.find? (fun p => decide (p.1 = n)) with
  | some p => p.2
  | none => FTree.node none []

/-- Python dict assignment `modules[mod_path] = entry`: overwrite an existing
key in place, otherwise append. -/
def setEntry (m : List (String × ModuleEntry)) (k : String) (v : ModuleEntry) :
    List (String × ModuleEntry) :=
  if m.any (fun p => decide (p.1 = k)) then
    m.map (fun p => if p.1 = k then (k, v) else p)
  else m ++ [(k, v)]

/-- The `child_deps` dict built by the mod loop (`child_deps[name] = deps`,
later declarations of the same name overwriting earlier ones), read back
with `.get(cname, [])`. -/
def childDepsOf (mods : List (String × List String)) : String → List String :=
  fun n =>
    match mods.reverse.find? (fun m => decide (m.1 = n)) with
    | some m => m.2
    | none => []

/-- Split a path string at every `/` (Python `str.split("/")`), structurally
recursive over the characters. -/
def splitSlashAux : List Char → List Char → List String
  | [], acc => [⟨acc⟩]
  | c :: rest, acc =>
    if c = '/' then ⟨acc⟩ :: splitSlashAux rest [] else splitSlashAux rest (acc ++ [c])

/-- Python `str.split("/")`. -/
def splitSlash (s : String) : List String :=
  splitSlashAux s.data []

/-- One step of `os.path.normpath` over the segments of a relative path:
drop empty and `.` segments, let `..` cancel the previous real segment. -/
def normStep (acc : List String) (seg : String) : List String :=
  if seg = "" ∨ seg = "." then acc
  else if seg = ".." then
    match acc.reverse with
    | [] => [".."]
    | lastE :: restRev => if lastE = ".." then acc ++ [".."] else restRev.reverse
  else acc ++ [seg]

/-- `os.path.normpath(os.path.join(str(file_dir), ref_path))` for the
relative paths appearing in call references: join the segments and
normalize away `.` and `..`. -/
def resolveRef (dir : List String) (refPath : String) : String :=
  String.intercalate "/" ((dir ++ splitSlash refPath).foldl normStep [])

/-- `parse_module(speck_file, mod_path, depth)` (lines 63–107), with fuel
bounding the recursion depth (the real tree is finite, so a fuel of at least
its depth reproduces the source exactly).  A missing file returns the state
unchanged.  Otherwise: recurse into each declared child (collecting its
modules and edges), then record this module's function names and call-
reference edges, then store this module's entry with its sorted children. -/
def parse_module : Nat → FTree → List String → String → Nat → PState → PState
  | 0, _, _, _, _, st => st
  | _ + 1, FTree.node none _, _, _, _, st => st
  | fuel + 1, FTree.node (some content) sub, dir, modPath, depth, st =>
    let stA := content.mods.foldl
      (fun s m =>
        parse_module fuel (findSub sub m.1) (dir ++ [m.1])
          (modPath ++ "/" ++ m.1) (depth + 1) s) st
    let children := content.mods.map (fun m => modPath ++ "/" ++ m.1)
    let newEdges := content.fns.foldl
      (fun es f =>
        es ++ f.2.map (fun rf => ((modPath, f.1), (resolveRef dir rf.1, rf.2))))
      stA.edges
    ⟨setEntry stA.modules modPath
      ⟨lastSeg modPath, modPath, sort_children children (childDepsOf content.mods),
        content.fns.map (fun f => f.1), depth⟩,
      newEdges⟩

/-- The complete graph snapshot returned by `parse_speck_tree`.  Function-edge
endpoints are kept as `(module path, function name)` pairs: the source joins
them with `"::"` and recovers the module path with `rsplit("::", 1)`, which
is injective because function names match `\w+` and so contain no `::`. -/
structure Snapshot where
  modules : List (String × ModuleEntry)
  function_edges : List ((String × String) × (String × String))
  module_edges : Finset (String × String)
  root : String

/-- The module-edge projection of `parse_speck_tree` (lines 111–116): every
function edge whose endpoints' module paths differ contributes the pair of
module paths to a set. -/
def projectModuleEdges (fes : List ((String × String) × (String × String))) :
    Finset (String × String) :=
  fes.foldl (fun s e => if e.1.1 = e.2.1 then s else insert (e.1.1, e.2.1) s) ∅

/-- `parse_speck_tree(root_file)` (lines 55–123): run the recursive walk from
the root, then derive the module edges from the collected function edges. -/
def parse_speck_tree (t : FTree) (rootDir : List String) (rootName : String)
    (fuel : Nat) : Snapshot :=
  let st := parse_module fuel t rootDir rootName 0 ⟨[], []⟩
  ⟨st.modules, st.edges, projectModuleEdges st.edges, rootName⟩

/-- Failing input for C6: a root `.speck` file declaring `mod a { }` while
`a/a.speck` does not exist. -/
def fsC6 : FTree :=
  FTree.node (some ⟨[("a", [])], []⟩) []

/-! ## Layout engine (`computeSize` / `computePositions`, lines 289–329)

Client-side geometry over `ℚ`.  The text-measurement function supplied by
the rendering environment is an arbitrary parameter.  The mutable fields
`node.w/h/x/y/_fnAreaH/_secGap` set by the two passes become fields of the
sized (`ZNode`) and positioned (`PNode`) trees; the `fb`/`mb` dictionaries
filled by `computePositions` become the per-node function-box list and the
per-node box. -/

def PAD : ℚ := 30
def PAD_BOTTOM : ℚ := 50
def HEADER_H : ℚ := 38
def FN_H : ℚ := 30
def FN_GAP : ℚ := 10
def MOD_GAP : ℚ := 60
def SECTION_GAP : ℚ := 20
def FN_PAD_X : ℚ := 14
def MIN_MOD_W : ℚ := 80
def LABEL_SIZE : ℚ := 13
def FN_SIZE : ℚ := 12
def ARROW_W : ℚ := 10

/-- The tree handed to the layout passes (`buildTree`, lines 276–286). -/
inductive SNode where
  | mk (name : String) (path : String) (depth : Nat) (functions : List String)
      (childNodes : List SNode)

def SNode.childNodes : SNode → List SNode
  | ⟨_, _, _, _, cs⟩ => cs

/-- The tree after the sizing pass, carrying `w`, `h`, `_fnAreaH`, `_secGap`. -/
inductive ZNode where
  | mk (name : String) (path : String) (depth : Nat) (functions : List String)
      (children : List ZNode) (w h fnAreaH secGap : ℚ)

def ZNode.w : ZNode → ℚ
  | ⟨_, _, _, _, _, w, _, _, _⟩ => w

def ZNode.h : ZNode → ℚ
  | ⟨_, _, _, _, _, _, h, _, _⟩ => h

/-- `fnAreaH` as computed at line 296: total height of the function rows. -/
def fnArea (fns : List String) : ℚ :=
  if fns.length > 0 then
    (fns.length : ℚ) * FN_H + ((fns.length : ℚ) - 1) * FN_GAP
  else 0

/-- `childrenW` as computed at lines 298–303: sum of child widths plus the
inter-child gaps when there is more than one child. -/
def rowW (cs : List ZNode) : ℚ :=
  (cs.map ZNode.w).sum
    + (if cs.length > 1 then ((cs.length : ℚ) - 1) * MOD_GAP else 0)

/-- `childrenH`: running maximum of the child heights, starting from 0. -/
def colH (cs : List ZNode) : ℚ :=
  (cs.map ZNode.h).foldl max 0

/-- `computeSize(node)` (lines 289–310): bottom-up sizing pass. -/
def computeSize (measure : String → ℚ → ℚ) : SNode → ZNode
  | ⟨name, path, depth, fns, cs⟩ =>
    let zs := cs.attach.map (fun c => computeSize measure c.1)
    let labelW := measure name LABEL_SIZE + 8
    let fnMaxW := fns.foldl (fun mw f => max mw (measure f FN_SIZE + 2 * FN_PAD_X)) 0
    let fnAreaH := fnArea fns
    let childrenH := colH zs
    let childrenW := rowW zs
    let secGap := if fnAreaH > 0 ∧ childrenH > 0 then SECTION_GAP else 0
    let contentW := max (max (max labelW fnMaxW) childrenW) MIN_MOD_W
    ⟨name, path, depth, fns, zs, contentW + 2 * PAD,
      HEADER_H + fnAreaH + secGap + childrenH + PAD_BOTTOM, fnAreaH, secGap⟩
decreasing_by
  have := List.sizeOf_lt_of_mem c.2
  simp only [SNode.mk.sizeOf_spec]
  omega

/-- An axis-aligned rectangle with origin `(x, y)`. -/
structure Box where
  x : ℚ
  y : ℚ
  w : ℚ
  h : ℚ
deriving DecidableEq

/-- The positioned tree: per-module box, its function boxes (keyed by
`path::name` as in the `fb` dict) and its positioned children. -/
inductive PNode where
  | mk (path : String) (box : Box) (fnBoxes : List (String × Box))
      (children : List PNode)

def PNode.box : PNode → Box
  | ⟨_, b, _, _⟩ => b

def PNode.fnBoxes : PNode → List (String × Box)
  | ⟨_, _, f, _⟩ => f

def PNode.children : PNode → List PNode
  | ⟨_, _, _, cs⟩ => cs

/-- The function-box stacking loop of `computePositions` (lines 317–322):
each function box spans the interior width, `FN_H` tall, successive rows
offset by `FN_H + FN_GAP`. -/
def fnBoxesFrom (innerX innerW : ℚ) (path : String) : ℚ → List String → List (String × Box)
  | _, [] => []
  | fnY, f :: rest =>
    (path ++ "::" ++ f, ⟨innerX, fnY, innerW, FN_H⟩)
      :: fnBoxesFrom innerX innerW path (fnY + FN_H + FN_GAP) rest

mutual

/-- `computePositions(node, x, y, fb, mb)` (lines 313–329): top-down
positioning pass. -/
def computePositions : ZNode → ℚ → ℚ → PNode
  | ⟨_, path, _, fns, cs, w, h, fnAreaH, secGap⟩, x, y =>
    PNode.mk path ⟨x, y, w, h⟩
      (fnBoxesFrom (x + PAD) (w - 2 * PAD) path (y + HEADER_H) fns)
      (placeChildren (x + PAD) (y + HEADER_H + fnAreaH + secGap) cs)

/-- The child placement loop of `computePositions` (lines 325–328): children
placed left to right, each offset by the previous child's width plus the
inter-child gap. -/
def placeChildren : ℚ → ℚ → List ZNode → List PNode
  | _, _, [] => []
  | cx, cy, c :: rest =>
    computePositions c cx cy :: placeChildren (cx + c.w + MOD_GAP) cy rest

end

/-! ## Visibility engine (lines 470–518, 603–641)

Client-side module paths are `/`-joined strings repeatedly split on `/`;
they are modelled as their segment lists.  Segment names match `\w+`, so
they contain no `/` and the encoding is a bijection on the paths that
occur.  The Expanded-Set (a JS `Set` of path strings) becomes a
`Finset (List String)` where the handlers mutate it, and a plain
`List (List String)` (membership only) where the visibility queries read
it.  An edge-endpoint `modulePath::functionName` string is the pair of its
module path and function name (function names match `\w+`, so the `::`
joining is injective and the pair encoding is faithful). -/

/-- A resolved endpoint: a module box or a function box. -/
inductive Endpoint where
  | mod (p : List String)
  | fn (p : List String) (name : String)
deriving DecidableEq

/-- The ancestor-checking loop of `isModVisible` (lines 473–478): check each
proper prefix of the path for membership in the Expanded-Set. -/
def visWalk (exp : List (List String)) : List String → List String → Bool
  | _, [] => true
  | acc, s :: rest => decide (acc ∈ exp) && visWalk exp (acc ++ [s]) rest

/-- `isModVisible(path)` (lines 470–479): a module's box is reachable iff
every strict ancestor (root-to-parent) is expanded; the root (a single
segment) is always visible. -/
def isModVisible (exp : List (List String)) (path : List String) : Bool :=
  match path with
  | [] => true
  | s :: rest => visWalk exp [s] rest

/-- `isFnVisible(fnId)` (lines 481–484): the owning module is reachable and
its own contents are expanded. -/
def isFnVisible (exp : List (List String)) (modPath : List String) (_fn : String) : Bool :=
  isModVisible exp modPath && decide (modPath ∈ exp)

/-- The walk of `resolveVisible` (lines 492–499): starting from the root
segment, return the first prefix whose contents are not expanded; `none`
means every prefix, the full module path included, is expanded. -/
def firstCollapsed (exp : List (List String)) : List String → List String → Option (List String)
  | acc, [] => if acc ∈ exp then none else some acc
  | acc, s :: rest => if acc ∈ exp then firstCollapsed exp (acc ++ [s]) rest else some acc

/-- `resolveVisible(fnId)` (lines 487–500): resolve an edge endpoint to the
most specific visible element. -/
def resolveVisible (exp : List (List String)) (modPath : List String)
    (fn : String) : Endpoint :=
  match modPath with
  | [] => Endpoint.fn [] fn
  | s :: rest =>
    match firstCollapsed exp [s] rest with
    | some p => Endpoint.mod p
    | none => Endpoint.fn modPath fn

/-- The root-to-module chain of nonempty prefixes of a module path, shortest
first: the chain `resolveVisible` walks. -/
def chainPrefixes (modPath : List String) : List (List String) :=
  (List.range modPath.length).map (fun i => modPath.take (i + 1))

/-- The list of prefixes visited by `firstCollapsed exp acc rest`
(`acc`, then each extension of `acc` by the next segment of `rest`). -/
def accPrefixes (acc : List String) : List String → List (List String)
  | [] => [acc]
  | s :: rest => acc :: accPrefixes (acc ++ [s]) rest

/-- The edge-selection loop of `updateArrows` (lines 577–586): resolve both
endpoints of every function edge, drop edges whose resolutions coincide,
and deduplicate resolved pairs keeping first occurrences (the `edgeMap`
keyed by `rSrc + '>' + rTgt`). -/
def resolvedEdgePairs (exp : List (List String))
    (edges : List ((List String × String) × (List String × String))) :
    List (Endpoint × Endpoint) :=
  edges.foldl
    (fun acc e =>
      let rs := resolveVisible exp e.1.1 e.1.2
      let rt := resolveVisible exp e.2.1 e.2.2
      if rs = rt then acc
      else if (rs, rt) ∈ acc then acc else acc ++ [(rs, rt)])
    []

/-- `descendantId.startsWith(ancestorId + '/')` on segment lists: `q`
strictly extends `p`. -/
def properUnder : List String → List String → Bool
  | [], [] => false
  | [], _ :: _ => true
  | _ :: _, [] => false
  | a :: p2, b :: q2 => decide (a = b) && properUnder p2 q2

/-- The svg click handler (lines 603–628).  Collapse branch: remove the
clicked path and every descendant path from the Expanded-Set.  Ctrl-click
branch: add the clicked path and every descendant among the known module
paths.  Plain click: add just the clicked path. -/
def clickToggle (allPaths : List (List String)) (exp : Finset (List String))
    (path : List String) (ctrl : Bool) : Finset (List String) :=
  if path ∈ exp then
    exp.filter (fun p => ¬ (p = path ∨ properUnder path p = true))
  else if ctrl then
    allPaths.foldl
      (fun e mp => if mp = path ∨ properUnder path mp = true then insert mp e else e) exp
  else insert path exp

/-- The `btn-collapse` handler (lines 636–641): `expanded.clear()` followed
by `expanded.add(graph.root)`. -/
def collapseAllClick (root : List String) : Finset (List String) :=
  insert root ∅

/-! ## Router (`connectionPoints` / `orthogonalPath` / `findBlockingBoxes` /
`reroutedPath` / `computeArrowPath`, lines 333–458)

SVG path strings are modelled as their command sequences (`M`/`L`/`Q` with
exact coordinates); the string rendering is injective on them. -/

/-- One SVG path command: move, line, or quadratic bezier. -/
inductive PathCmd where
  | move (x y : ℚ)
  | line (x y : ℚ)
  | quad (cx cy x y : ℚ)
deriving DecidableEq

/-- The four connection coordinates returned by `connectionPoints`. -/
structure ConnPts where
  sx : ℚ
  sy : ℚ
  tx : ℚ
  ty : ℚ
deriving DecidableEq

/-- `connectionPoints(s, t)` (lines 373–402): pick the connection sides from
the gaps between the two boxes' edges. -/
def connectionPoints (s t : Box) : ConnPts :=
  let hGap := max (t.x - (s.x + s.w)) (max (s.x - (t.x + t.w)) 0)
  let vGap := max (t.y - (s.y + s.h)) (max (s.y - (t.y + t.h)) 0)
  let sCx := s.x + s.w / 2
  let sCy := s.y + s.h / 2
  let tCx := t.x + t.w / 2
  let tCy := t.y + t.h / 2
  if hGap ≥ vGap then
    if tCx ≥ sCx then ⟨s.x + s.w, sCy, t.x - ARROW_W, tCy⟩
    else ⟨s.x, sCy, t.x + t.w + ARROW_W, tCy⟩
  else
    let overlapL := max s.x t.x
    let overlapR := min (s.x + s.w) (t.x + t.w)
    let sharedX :=
      if overlapL < overlapR then (overlapL + overlapR) / 2 else (sCx + tCx) / 2
    if tCy ≥ sCy then ⟨sharedX, s.y + s.h, sharedX, t.y - ARROW_W⟩
    else ⟨sharedX, s.y, sharedX, t.y + t.h + ARROW_W⟩

/-- C8's reading of the connection-side rule, written from the claim's own
words: compare the horizontal and vertical gaps between the bounding
rectangles, each taken as 0 when the boxes overlap on that axis; when the
horizontal gap is at least the vertical gap, attach to the left/right sides
at each box's vertical center; otherwise attach to the top/bottom sides at
a shared x equal to the midpoint of the horizontal overlap, or the midpoint
of the two centers when the boxes do not overlap horizontally.  (The target
coordinate is inset by the arrowhead length `ARROW_W`, which the arrowhead
marker then covers, so the drawn connector reaches the box side.) -/
def connectionPointsSpec (s t : Box) : ConnPts :=
  let hGap := max 0 (max (t.x - (s.x + s.w)) (s.x - (t.x + t.w)))
  let vGap := max 0 (max (t.y - (s.y + s.h)) (s.y - (t.y + t.h)))
  let sMidX := s.x + s.w / 2
  let sMidY := s.y + s.h / 2
  let tMidX := t.x + t.w / 2
  let tMidY := t.y + t.h / 2
  if hGap ≥ vGap then
    if tMidX ≥ sMidX then ⟨s.x + s.w, sMidY, t.x - ARROW_W, tMidY⟩
    else ⟨s.x, sMidY, t.x + t.w + ARROW_W, tMidY⟩
  else
    let sharedX :=
      if max s.x t.x < min (s.x + s.w) (t.x + t.w) then
        (max s.x t.x + min (s.x + s.w) (t.x + t.w)) / 2
      else (sMidX + tMidX) / 2
    if tMidY ≥ sMidY then ⟨sharedX, s.y + s.h, sharedX, t.y - ARROW_W⟩
    else ⟨sharedX, s.y, sharedX, t.y + t.h + ARROW_W⟩

/-- `orthogonalPath(sx, sy, tx, ty)` (lines 333–371): single-bend orthogonal
path with rounded corners, direction chosen by the dominant axis. -/
def orthogonalPath (sx sy tx ty : ℚ) : List PathCmd :=
  let R : ℚ := 6
  let dx := tx - sx
  let dy := ty - sy
  if |dy| < 1 then [.move sx sy, .line tx ty]
  else if |dx| < 1 then [.move sx sy, .line tx ty]
  else if |dx| ≥ |dy| then
    let midX := (sx + tx) / 2
    let r := max (min (min (min R |midX - sx|) |tx - midX|) (|dy| / 2)) 0
    let dv : ℚ := if dy > 0 then 1 else -1
    let dh : ℚ := if dx > 0 then 1 else -1
    [.move sx sy, .line (midX - dh * r) sy, .quad midX sy midX (sy + dv * r),
     .line midX (ty - dv * r), .quad midX ty (midX + dh * r) ty, .line tx ty]
  else
    let midY := (sy + ty) / 2
    let r := max (min (min (min R |midY - sy|) |ty - midY|) (|dx| / 2)) 0
    let dh : ℚ := if dx > 0 then 1 else -1
    let dv : ℚ := if dy > 0 then 1 else -1
    [.move sx sy, .line sx (midY - dv * r), .quad sx midY (sx + dh * r) midY,
     .line (tx - dh * r) midY, .quad tx midY tx (midY + dv * r), .line tx ty]

/-- A visible obstacle: an id (module path or function identity) and its box
coordinates, as collected by `getVisibleObstacles`. -/
structure Obstacle where
  id : Endpoint
  x : ℚ
  y : ℚ
  w : ℚ
  h : ℚ
deriving DecidableEq

/-- `isAncestorOf(ancestorId, descendantId)` (lines 404–407):
`descendantId.startsWith(ancestorId + '/')` or
`descendantId.startsWith(ancestorId + '::')` on the joined strings.  A
function id is never an ancestor (its string contains `::`, which no id
extends past with `/` or `::`); a module is an ancestor of a function
inside it (`p = q`) or inside a strict descendant (`properUnder p q`). -/
def isAncestorOf (a d : Endpoint) : Bool :=
  match a, d with
  | .mod p, .mod q => properUnder p q
  | .mod p, .fn q _ => properUnder p q || decide (p = q)
  | .fn _ _, _ => false

/-- `findBlockingBoxes` (lines 409–423): the obstacles intersecting the
slightly-inset bounding rectangle of the connector, excluding the endpoint
boxes and anything related to either endpoint by nesting. -/
def findBlockingBoxes (sx sy tx ty : ℚ) (sourceId targetId : Endpoint)
    (obstacles : List Obstacle) : List Obstacle :=
  let xMin := min sx tx + 2
  let xMax := max sx tx - 2
  let yMin := min sy ty - 2
  let yMax := max sy ty + 2
  obstacles.filter (fun obs =>
    decide (¬ (obs.id = sourceId ∨ obs.id = targetId
      ∨ isAncestorOf obs.id sourceId = true ∨ isAncestorOf obs.id targetId = true
      ∨ isAncestorOf sourceId obs.id = true ∨ isAncestorOf targetId obs.id = true
      ∨ obs.x + obs.w ≤ xMin ∨ obs.x ≥ xMax
      ∨ obs.y + obs.h ≤ yMin ∨ obs.y ≥ yMax)))

/-- `Math.min.apply(null, l)` for the nonempty lists the router builds
(0 as the modelling default on the empty list, which the callers never
pass). -/
def qListMin : List ℚ → ℚ
  | [] => 0
  | x :: xs => xs.foldl min x

/-- `Math.max.apply(null, l)`, same conventions as `qListMin`. -/
def qListMax : List ℚ → ℚ
  | [] => 0
  | x :: xs => xs.foldl max x

/-- `reroutedPath` (lines 425–451): one horizontal detour line above or
below the blocking boxes, whichever is closer to the connector's average
height, between two vertical runs placed just outside the blockers'
horizontal span. -/
def reroutedPath (sx sy tx ty : ℚ) (blocking : List Obstacle)
    (_sourceBox : Box) : List PathCmd :=
  let ROUTE_MARGIN : ℚ := 15
  let OBS_GAP : ℚ := 20
  let R : ℚ := 6
  let MIN_RUNIN : ℚ := 15
  let topY := qListMin (blocking.map (fun b => b.y)) - ROUTE_MARGIN
  let botY := qListMax (blocking.map (fun b => b.y + b.h)) + ROUTE_MARGIN
  let avgY := (sy + ty) / 2
  let routeY := if |topY - avgY| ≤ |botY - avgY| then topY else botY
  let leftEdge := qListMin (blocking.map (fun b => b.x))
  let rightEdge := qListMax (blocking.map (fun b => b.x + b.w))
  let cx1 := max (sx + 2) (leftEdge - OBS_GAP)
  let cx2 := min (tx - MIN_RUNIN) (rightEdge + OBS_GAP)
  let r := max (min (min (min (min R (|sy - routeY| / 2)) (|ty - routeY| / 2))
    (|cx1 - sx| / 2)) (min (|tx - cx2| / 2) (|cx2 - cx1| / 2))) 0
  let d1 : ℚ := if routeY < sy then -1 else 1
  let d2 : ℚ := if ty > routeY then 1 else -1
  [.move sx sy, .line (cx1 - r) sy, .quad cx1 sy cx1 (sy + d1 * r),
   .line cx1 (routeY - d1 * r), .quad cx1 routeY (cx1 + r) routeY,
   .line (cx2 - r) routeY, .quad cx2 routeY cx2 (routeY + d2 * r),
   .line cx2 (ty - d2 * r), .quad cx2 ty (cx2 + r) ty, .line tx ty]

/-- `computeArrowPath(s, t, sourceId, targetId, obstacles)` (lines 453–458):
direct single-bend path when nothing blocks the connector, otherwise the
detour path. -/
def computeArrowPath (s t : Box) (sourceId targetId : Endpoint)
    (obstacles : List Obstacle) : List PathCmd :=
  let pts := connectionPoints s t
  let blocking := findBlockingBoxes pts.sx pts.sy pts.tx pts.ty sourceId targetId obstacles
  if blocking.length = 0 then orthogonalPath pts.sx pts.sy pts.tx pts.ty
  else reroutedPath pts.sx pts.sy pts.tx pts.ty blocking s

/-- The full layout run as `loadAndRender` performs it (lines 694–712): the
previous render's box dictionaries are discarded (`fnBoxes = {};
modBoxes = {}`) before the two passes, so the result is a function of the
tree and the measurement function only — the first parameter records the
previous render state and is ignored, exactly as the source resets it. -/
def loadLayout (_prev : Option PNode) (m : String → ℚ → ℚ) (t : SNode)
    (x y : ℚ) : PNode :=
  computePositions (computeSize m t) x y

/-- The path set `updateArrows` draws (lines 588–599): one path per resolved
edge pair whose two endpoint boxes exist (dangling endpoints are skipped). -/
def computeAllPaths (obstacles : List Obstacle) (boxOf : Endpoint → Option Box)
    (resolved : List (Endpoint × Endpoint)) : List (List PathCmd) :=
  resolved.foldl
    (fun acc e =>
      match boxOf e.1, boxOf e.2 with
      | some sb, some tb => acc ++ [computeArrowPath sb tb e.1 e.2 obstacles]
      | _, _ => acc) []

/-- `inner` lies entirely within `outer`. -/
def inside (inner outer : Box) : Prop :=
  outer.x ≤ inner.x ∧ outer.y ≤ inner.y ∧
  inner.x + inner.w ≤ outer.x + outer.w ∧ inner.y + inner.h ≤ outer.y + outer.h

/-- The containment property C3 asserts of a single positioned module: its
box contains each of its own function boxes and each child's entire box. -/
def goodNode (p : PNode) : Prop :=
  (∀ fb ∈ p.fnBoxes, inside fb.2 p.box) ∧ (∀ c ∈ p.children, inside c.box p.box)

/-- `Subnode q p`: `q` is a node of the positioned tree rooted at `p`. -/
inductive Subnode : PNode → PNode → Prop where
  | refl (p : PNode) : Subnode p p
  | child {q c : PNode} (p : PNode) : c ∈ p.children → Subnode q c → Subnode q p

theorem updf_same {α : Type} (f : String → α) (k : String) (v : α) :
    updf f k v k = v := by
  simp [updf]

theorem updf_other {α : Type} (f : String → α) {k x : String} (v : α)
    (h : x ≠ k) : updf f k v x = f x := by
  simp [updf, h]

theorem before_append_right {u v : String} {l : List String} (l' : List String)
    (h : before u v l) : before u v (l ++ l') := by
  obtain ⟨l₁, l₂, l₃, rfl⟩ := h
  exact ⟨l₁, l₂, l₃ ++ l', by simp⟩

theorem before_mem_snoc {u v : String} {l : List String} (hu : u ∈ l) :
    before u v (l ++ [v]) := by
  obtain ⟨s, t, rfl⟩ := List.append_of_mem hu
  exact ⟨s, t, [], by simp⟩

theorem before_iff (u v : String) (l : List String) :
    before u v l ↔ beforeB u v l = true := by
  induction l with
  | nil =>
    simp only [beforeB]
    constructor
    · rintro ⟨l₁, l₂, l₃, h⟩
      exact absurd h (by simp)
    · intro h; cases h
  | cons x xs ih =>
    simp only [beforeB, Bool.or_eq_true, Bool.and_eq_true, decide_eq_true_eq]
    constructor
    · rintro ⟨l₁, l₂, l₃, h⟩
      cases l₁ with
      | nil =>
        simp only [List.nil_append, List.cons.injEq] at h
        exact Or.inl ⟨h.1, by rw [h.2]; simp⟩
      | cons y l₁ =>
        simp only [List.cons_append, List.cons.injEq] at h
        exact Or.inr (ih.mp ⟨l₁, l₂, l₃, h.2⟩)
    · rintro (⟨rfl, hv⟩ | h)
      · obtain ⟨s, t, rfl⟩ := List.append_of_mem hv
        exact ⟨[], s, t, rfl⟩
      · obtain ⟨l₁, l₂, l₃, rfl⟩ := ih.mpr h
        exact ⟨x :: l₁, l₂, l₃, rfl⟩

theorem countIn_append (l1 l2 : List String) (adj : String → List String) (v : String) :
    countIn (l1 ++ l2) adj v = countIn l1 adj v + countIn l2 adj v := by
  simp [countIn]

theorem countIn_cons (x : String) (l : List String) (adj : String → List String) (v : String) :
    countIn (x :: l) adj v = (adj x).count v + countIn l adj v := by
  simp [countIn]

theorem countIn_perm {l1 l2 : List String} (adj : String → List String) (v : String)
    (h : l1.Perm l2) : countIn l1 adj v = countIn l2 adj v :=
  (h.map _).sum_eq

theorem countIn_pos_exists {l : List String} {adj : String → List String} {v : String}
    (h : 0 < countIn l adj v) : ∃ u ∈ l, v ∈ adj u := by
  induction l with
  | nil => simp [countIn] at h
  | cons x xs ih =>
    rw [countIn_cons] at h
    by_cases hx : v ∈ adj x
    · exact ⟨x, by simp, hx⟩
    · have hc : (adj x).count v = 0 := List.count_eq_zero.mpr hx
      rw [hc, Nat.zero_add] at h
      obtain ⟨u, hu, hv⟩ := ih h
      exact ⟨u, by simp [hu], hv⟩

theorem nameToPath_mem {children : List String} {d dp : String}
    (h : nameToPath children d = some dp) : dp ∈ children := by
  have := List.mem_of_find?_eq_some h
  exact List.mem_reverse.mp this

theorem perm_split {l1 l2 : List String} (h2 : l2.Nodup) (h1 : l1.Nodup)
    (hsub : ∀ x ∈ l1, x ∈ l2) :
    l2.Perm (l1 ++ l2.filter (fun x => decide (x ∉ l1))) := by
  apply List.perm_of_nodup_nodup_toFinset_eq h2
  · refine List.Nodup.append h1 (h2.filter _) ?_
    intro a ha1 ha2
    have := List.of_mem_filter ha2
    simp at this
    exact this ha1
  · ext a
    simp only [List.mem_toFinset, List.mem_append, List.mem_filter,
      decide_eq_true_eq]
    constructor
    · intro ha
      by_cases h : a ∈ l1
      · exact Or.inl h
      · exact Or.inr ⟨ha, h⟩
    · rintro (h | ⟨h, _⟩)
      · exact hsub a h
      · exact h

theorem depFold_adj_cp (children : List String) (cp : String) :
    ∀ (L : List String) (g : DepGraph),
      (L.foldl (depStep children cp) g).adj cp
        = g.adj cp ++ L.filterMap (fun d => nameToPath children d) := by
  intro L
  induction L with
  | nil => intro g; simp
  | cons d rest ih =>
    intro g
    rw [List.foldl_cons, List.filterMap_cons]
    cases hn : nameToPath children d with
    | none => simp only [depStep, hn]; exact ih g
    | some dp =>
      simp only [depStep, hn]
      rw [ih]
      simp [updf_same, List.append_assoc]

theorem depFold_adj_other (children : List String) (cp : String) :
    ∀ (L : List String) (g : DepGraph) (u : String), u ≠ cp →
      (L.foldl (depStep children cp) g).adj u = g.adj u := by
  intro L
  induction L with
  | nil => intro g u _; rfl
  | cons d rest ih =>
    intro g u hu
    rw [List.foldl_cons]
    cases hn : nameToPath children d with
    | none => simp only [depStep, hn]; exact ih g u hu
    | some dp =>
      simp only [depStep, hn]
      rw [ih _ _ hu]
      exact updf_other _ _ hu

theorem depFold_ind (children : List String) (cp : String) :
    ∀ (L : List String) (g : DepGraph) (v : String),
      (L.foldl (depStep children cp) g).ind v
        = g.ind v + ((L.filterMap (fun d => nameToPath children d)).count v : Int) := by
  intro L
  induction L with
  | nil => intro g v; simp
  | cons d rest ih =>
    intro g v
    rw [List.foldl_cons, List.filterMap_cons]
    cases hn : nameToPath children d with
    | none => simp only [depStep, hn]; exact ih g v
    | some dp =>
      simp only [depStep, hn]
      rw [ih, List.count_cons]
      simp only [updf]
      by_cases hv : v = dp
      · subst hv
        simp only [if_pos rfl, beq_self_eq_true, if_true]
        push_cast
        ring
      · have hbe : (dp == v) = false := by
          simp only [beq_eq_false_iff_ne, ne_eq]
          exact fun h => hv h.symm
        simp [hv, hbe]

theorem buildFold_adj_stable (children : List String) (deps : String → List String) :
    ∀ (l : List String) (g : DepGraph) (u : String), u ∉ l →
      ((l.foldl (buildStep children deps) g)).adj u = g.adj u := by
  intro l
  induction l with
  | nil => intro g u _; rfl
  | cons cp rest ih =>
    intro g u hu
    rw [List.foldl_cons]
    have hne : u ≠ cp := fun h => hu (by simp [h])
    rw [ih _ _ (fun h => hu (by simp [h]))]
    exact depFold_adj_other children cp _ g u hne

theorem buildFold_adj_mem (children : List String) (deps : String → List String) :
    ∀ (l : List String) (g : DepGraph),
      (∀ u v, v ∈ g.adj u → v ∈ children) →
      ∀ u v, v ∈ ((l.foldl (buildStep children deps) g)).adj u → v ∈ children := by
  intro l
  induction l with
  | nil => intro g hg; exact hg
  | cons cp rest ih =>
    intro g hg
    rw [List.foldl_cons]
    apply ih
    intro u v hv
    by_cases hu : u = cp
    · subst hu
      rw [buildStep, depFold_adj_cp] at hv
      rcases List.mem_append.mp hv with h | h
      · exact hg _ _ h
      · obtain ⟨d, _, hd⟩ := List.mem_filterMap.mp h
        exact nameToPath_mem hd
    · rw [buildStep, depFold_adj_other _ _ _ _ _ hu] at hv
      exact hg _ _ hv

theorem buildGraph_adj_mem (children : List String) (deps : String → List String) :
    ∀ u v, v ∈ (buildGraph children deps).adj u → v ∈ children := by
  apply buildFold_adj_mem
  intro u v hv
  simp at hv

theorem buildGraph_adj_nil (children : List String) (deps : String → List String) :
    ∀ u, u ∉ children → (buildGraph children deps).adj u = [] := by
  intro u hu
  rw [buildGraph, buildFold_adj_stable _ _ _ _ _ hu]

theorem buildFold_ind_count (children : List String) (deps : String → List String) :
    ∀ (l : List String) (g : DepGraph), l.Nodup → (∀ u ∈ l, g.adj u = []) →
      ∀ v, ((l.foldl (buildStep children deps) g)).ind v
        = g.ind v + (countIn l ((l.foldl (buildStep children deps) g)).adj v : Int) := by
  intro l
  induction l with
  | nil => intro g _ _ v; simp [countIn]
  | cons cp rest ih =>
    intro g hnd hnil v
    rw [List.foldl_cons]
    have hcpnil : g.adj cp = [] := hnil cp (by simp)
    have hrest : ∀ u ∈ rest, (buildStep children deps g cp).adj u = [] := by
      intro u hu
      have hne : u ≠ cp := fun h => (List.nodup_cons.mp hnd).1 (h ▸ hu)
      rw [buildStep, depFold_adj_other _ _ _ _ _ hne]
      exact hnil u (by simp [hu])
    rw [ih _ (List.nodup_cons.mp hnd).2 hrest]
    have hcpstable : ((rest.foldl (buildStep children deps) (buildStep children deps g cp))).adj cp
        = (buildStep children deps g cp).adj cp :=
      buildFold_adj_stable _ _ _ _ _ (List.nodup_cons.mp hnd).1
    have hstep_ind : (buildStep children deps g cp).ind v
        = g.ind v + (((deps (lastSeg cp)).filterMap (fun d => nameToPath children d)).count v : Int) :=
      depFold_ind children cp _ g v
    have hstep_adj : (buildStep children deps g cp).adj cp
        = (deps (lastSeg cp)).filterMap (fun d => nameToPath children d) := by
      rw [buildStep, depFold_adj_cp, hcpnil, List.nil_append]
    rw [countIn_cons, hcpstable, hstep_adj, hstep_ind]
    push_cast
    ring

theorem buildGraph_ind_count (children : List String) (deps : String → List String)
    (hnd : children.Nodup) :
    ∀ v, (buildGraph children deps).ind v
      = (countIn children (buildGraph children deps).adj v : Int) := by
  intro v
  rw [buildGraph, buildFold_ind_count children deps children _ hnd (by intro u _; rfl) v]
  simp

theorem processDeps_spec :
    ∀ (L : List String) (ind : String → Int) (q res : List String),
      (res ++ q).Nodup →
      (∀ x ∈ res ++ q, ind x ≤ 0) →
      ∃ newL : List String,
        (processDeps L (ind, q)).2 = q ++ newL ∧
        (∀ v, (processDeps L (ind, q)).1 v = ind v - (L.count v : Int)) ∧
        (res ++ (q ++ newL)).Nodup ∧
        (∀ x ∈ newL, x ∈ L ∧ 1 ≤ ind x ∧ ind x ≤ (L.count x : Int)) ∧
        (∀ v, v ∉ res ++ (q ++ newL) → 1 ≤ ind v →
          1 ≤ (processDeps L (ind, q)).1 v) := by
  intro L
  induction L with
  | nil =>
    intro ind q res hnd hle
    refine ⟨[], by simp [processDeps], ?_, by simpa using hnd, by simp, ?_⟩
    · intro v; simp [processDeps]
    · intro v _ h1; simpa [processDeps] using h1
  | cons dep rest ih =>
    intro ind q res hnd hle
    have hunfold : processDeps (dep :: rest) (ind, q)
        = processDeps rest
            (updf ind dep (ind dep - 1), if ind dep - 1 = 0 then q ++ [dep] else q) := rfl
    by_cases h0 : ind dep - 1 = 0
    · -- the decrement reaches zero: dep is appended to the queue
      have hdep1 : ind dep = 1 := by omega
      rw [hunfold, if_pos h0]
      have hfresh : dep ∉ res ++ q := by
        intro hmem
        have := hle dep hmem
        omega
      have hnd1 : (res ++ (q ++ [dep])).Nodup := by
        rw [← List.append_assoc]
        rw [List.nodup_append]
        refine ⟨hnd, List.nodup_singleton dep, ?_⟩
        intro a ha hb
        rcases List.mem_singleton.mp hb with rfl
        exact hfresh ha
      have hle1 : ∀ x ∈ res ++ (q ++ [dep]), updf ind dep (ind dep - 1) x ≤ 0 := by
        intro x hx
        by_cases hxd : x = dep
        · subst hxd; rw [updf_same]; omega
        · rw [updf_other _ _ hxd]
          have hx' : x ∈ res ++ q := by
            rw [← List.append_assoc] at hx
            rcases List.mem_append.mp hx with h | h
            · exact h
            · exact absurd (List.mem_singleton.mp h) hxd
          exact hle x hx'
      obtain ⟨newL, hq', hind', hnd', hprops', hpos'⟩ :=
        ih (updf ind dep (ind dep - 1)) (q ++ [dep]) res hnd1 hle1
      refine ⟨dep :: newL, ?_, ?_, ?_, ?_, ?_⟩
      · rw [hq']; simp
      · intro v
        rw [hind' v, List.count_cons]
        by_cases hv : v = dep
        · subst hv
          rw [updf_same]
          simp only [beq_self_eq_true, if_true]
          push_cast
          ring
        · rw [updf_other _ _ hv]
          have hbe : (dep == v) = false := by
            simp only [beq_eq_false_iff_ne, ne_eq]
            exact fun h => hv h.symm
          simp [hbe]
      · have : res ++ (q ++ dep :: newL) = res ++ ((q ++ [dep]) ++ newL) := by simp
        rw [this]
        exact hnd'
      · intro x hx
        rcases List.mem_cons.mp hx with rfl | hx'
        · refine ⟨by simp, by omega, ?_⟩
          rw [List.count_cons]
          simp only [beq_self_eq_true, if_true]
          push_cast
          omega
        · obtain ⟨hxr, hx1, hx2⟩ := hprops' x hx'
          have hxd : x ≠ dep := by
            intro h
            subst h
            rw [updf_same] at hx1
            omega
          rw [updf_other _ _ hxd] at hx1 hx2
          refine ⟨by simp [hxr], hx1, ?_⟩
          rw [List.count_cons]
          have : (rest.count x : Int) ≤ ((rest.count x + if dep == x then 1 else 0 : Nat) : Int) := by
            push_cast
            split <;> omega
          omega
      · intro v hv h1
        have hvd : v ≠ dep := by
          intro h; subst h
          exact hv (by simp)
        have hv' : v ∉ res ++ ((q ++ [dep]) ++ newL) := by
          intro hmem
          apply hv
          simpa using hmem
        apply hpos' v hv'
        rw [updf_other _ _ hvd]
        exact h1
    · -- the decrement does not reach zero: queue unchanged
      rw [hunfold, if_neg h0]
      have hle1 : ∀ x ∈ res ++ q, updf ind dep (ind dep - 1) x ≤ 0 := by
        intro x hx
        by_cases hxd : x = dep
        · subst hxd; rw [updf_same]
          have := hle _ hx
          omega
        · rw [updf_other _ _ hxd]; exact hle x hx
      obtain ⟨newL, hq', hind', hnd', hprops', hpos'⟩ :=
        ih (updf ind dep (ind dep - 1)) q res hnd hle1
      refine ⟨newL, hq', ?_, hnd', ?_, ?_⟩
      · intro v
        rw [hind' v, List.count_cons]
        by_cases hv : v = dep
        · subst hv
          rw [updf_same]
          simp only [beq_self_eq_true, if_true]
          push_cast
          ring
        · rw [updf_other _ _ hv]
          have hbe : (dep == v) = false := by
            simp only [beq_eq_false_iff_ne, ne_eq]
            exact fun h => hv h.symm
          simp [hbe]
      · intro x hx
        obtain ⟨hxr, hx1, hx2⟩ := hprops' x hx
        by_cases hxd : x = dep
        · subst hxd
          rw [updf_same] at hx1 hx2
          refine ⟨by simp, by omega, ?_⟩
          rw [List.count_cons]
          simp only [beq_self_eq_true, if_true]
          push_cast
          omega
        · rw [updf_other _ _ hxd] at hx1 hx2
          refine ⟨by simp [hxr], hx1, ?_⟩
          rw [List.count_cons]
          have : (rest.count x : Int) ≤ ((rest.count x + if dep == x then 1 else 0 : Nat) : Int) := by
            push_cast
            split <;> omega
          omega
      · intro v hv h1
        apply hpos' v hv
        by_cases hvd : v = dep
        · subst hvd
          rw [updf_same]
          omega
        · rw [updf_other _ _ hvd]
          exact h1

theorem countIn_le_of_subset {l1 l2 : List String} (adj : String → List String)
    (v : String) (h1 : l1.Nodup) (h2 : l2.Nodup) (hsub : ∀ x ∈ l1, x ∈ l2) :
    countIn l1 adj v ≤ countIn l2 adj v := by
  have hp := perm_split h2 h1 hsub
  rw [countIn_perm adj v hp, countIn_append]
  omega

theorem nodup_subset_length {l1 l2 : List String} (h1 : l1.Nodup)
    (hsub : ∀ x ∈ l1, x ∈ l2) : l1.length ≤ l2.length := by
  have hcard : l1.toFinset.card = l1.length := List.toFinset_card_of_nodup h1
  have hsub' : l1.toFinset ⊆ l2.toFinset := by
    intro a ha
    simp only [List.mem_toFinset] at ha ⊢
    exact hsub a ha
  calc l1.length = l1.toFinset.card := hcard.symm
    _ ≤ l2.toFinset.card := Finset.card_le_card hsub'
    _ ≤ l2.length := l2.toFinset_card_le

theorem kahn_master (children : List String) (adj : String → List String)
    (ind0 : String → Int) (hndc : children.Nodup)
    (hadj_mem : ∀ u v, v ∈ adj u → v ∈ children)
    (hadj_nil : ∀ u, u ∉ children → adj u = [])
    (hcount : ∀ v, ind0 v = (countIn children adj v : Int)) :
    ∀ (fuel : Nat) (queue : List String) (ind : String → Int) (res : List String),
      KahnInv children adj ind0 ind queue res →
      ∃ qf indf,
        KahnInv children adj ind0 indf qf (kahnLoop adj fuel queue ind res) ∧
        (children.length < res.length + fuel → qf = []) := by
  intro fuel
  induction fuel with
  | zero =>
    intro queue ind res hInv
    refine ⟨queue, ind, hInv, ?_⟩
    intro hlen
    obtain ⟨h1, h2, _, _, _, _, _⟩ := hInv
    have hres : res.Nodup := h1.of_append_left
    have hsub : ∀ x ∈ res, x ∈ children := fun x hx => h2 x (by simp [hx])
    have := nodup_subset_length hres hsub
    omega
  | succ f ih =>
    intro queue ind res hInv
    cases queue with
    | nil =>
      exact ⟨[], ind, hInv, fun _ => rfl⟩
    | cons node q =>
      obtain ⟨h1, h2, h3, h4, h5, h6, h7⟩ := hInv
      have hsplit : res ++ node :: q = (res ++ [node]) ++ q := by simp
      have hnd' : ((res ++ [node]) ++ q).Nodup := hsplit ▸ h1
      have hle' : ∀ x ∈ (res ++ [node]) ++ q, ind x ≤ 0 := by
        intro x hx
        exact h3 x (hsplit ▸ hx)
      obtain ⟨newL, hq2, hind2, hnd2, hprops2, hpos2⟩ :=
        processDeps_spec (adj node) ind q (res ++ [node]) hnd' hle'
      have hres'_nodup : (res ++ [node]).Nodup := hnd'.of_append_left
      have hres'_sub : ∀ x ∈ res ++ [node], x ∈ children := by
        intro x hx
        apply h2
        rw [hsplit]
        exact List.mem_append.mpr (Or.inl hx)
      have hmemI : ∀ x ∈ (res ++ [node]) ++ (q ++ newL), x ∈ children := by
        intro x hx
        rcases List.mem_append.mp hx with h | h
        · exact hres'_sub x h
        · rcases List.mem_append.mp h with h | h
          · exact h2 x (by rw [hsplit]; exact List.mem_append.mpr (Or.inr h))
          · exact hadj_mem node x (hprops2 x h).1
      have hcount' : ∀ v, countIn (res ++ [node]) adj v
          = countIn res adj v + (adj node).count v := by
        intro v
        rw [countIn_append, countIn_cons]
        simp [countIn]
      have hacc : ∀ v, (processDeps (adj node) (ind, q)).1 v
          = ind0 v - (countIn (res ++ [node]) adj v : Int) := by
        intro v
        rw [hind2 v, h4 v, hcount' v]
        push_cast
        ring
      have hInv' : KahnInv children adj ind0 (processDeps (adj node) (ind, q)).1
          (q ++ newL) (res ++ [node]) := by
        refine ⟨hnd2, hmemI, ?_, hacc, ?_, ?_, ?_⟩
        · -- ind' ≤ 0 on members
          intro x hx
          rw [hind2 x]
          rcases List.mem_append.mp hx with h | h
          · have : ind x ≤ 0 := hle' x (List.mem_append.mpr (Or.inl h))
            have hc : (0 : Int) ≤ ((adj node).count x : Int) := by positivity
            omega
          · rcases List.mem_append.mp h with h | h
            · have : ind x ≤ 0 := hle' x (List.mem_append.mpr (Or.inr h))
              have hc : (0 : Int) ≤ ((adj node).count x : Int) := by positivity
              omega
            · have := (hprops2 x h).2.2
              omega
        · -- queue members' in-neighbors are all emitted
          intro v hv u hvu
          rcases List.mem_append.mp hv with hvq | hvnew
          · exact List.mem_append.mpr (Or.inl (h5 v (by simp [hvq]) u hvu))
          · obtain ⟨_, hv1, hv2⟩ := hprops2 v hvnew
            have hv4 := h4 v
            have hub : ind0 v ≤ (countIn (res ++ [node]) adj v : Int) := by
              rw [hcount' v]
              push_cast
              omega
            have hcv : countIn children adj v ≤ countIn (res ++ [node]) adj v := by
              have := hcount v
              exact_mod_cast this ▸ hub
            have huc : u ∈ children := by
              by_contra huc
              rw [hadj_nil u huc] at hvu
              exact absurd hvu (List.not_mem_nil v)
            by_contra hur
            have hnd3 : ((res ++ [node]) ++ [u]).Nodup := by
              rw [List.nodup_append]
              refine ⟨hres'_nodup, List.nodup_singleton u, ?_⟩
              intro a ha hb
              rcases List.mem_singleton.mp hb with rfl
              exact hur ha
            have hsub3 : ∀ x ∈ (res ++ [node]) ++ [u], x ∈ children := by
              intro x hx
              rcases List.mem_append.mp hx with h | h
              · exact hres'_sub x h
              · rcases List.mem_singleton.mp h with rfl
                exact huc
            have hle3 := countIn_le_of_subset adj v hnd3 hndc hsub3
            rw [countIn_append] at hle3
            have hpos : 1 ≤ countIn [u] adj v := by
              rw [countIn_cons]
              have := List.one_le_count_iff.mpr hvu
              omega
            omega
        · -- positivity outside
          intro v hvc hvmem
          apply hpos2 v hvmem
          apply h6 v hvc
          intro hmem
          apply hvmem
          rw [hsplit] at hmem
          rcases List.mem_append.mp hmem with h | h
          · exact List.mem_append.mpr (Or.inl h)
          · exact List.mem_append.mpr (Or.inr (List.mem_append.mpr (Or.inl h)))
        · -- ordering
          intro v hv u hvu
          rcases List.mem_append.mp hv with hvr | hvn
          · exact before_append_right _ (h7 v hvr u hvu)
          · rcases List.mem_singleton.mp hvn with rfl
            exact before_mem_snoc (h5 v (by simp) u hvu)
      have hstep : kahnLoop adj (f + 1) (node :: q) ind res
          = kahnLoop adj f (processDeps (adj node) (ind, q)).2
              (processDeps (adj node) (ind, q)).1 (res ++ [node]) := rfl
      rw [hstep, hq2]
      obtain ⟨qf, indf, hInvf, hfuelf⟩ :=
        ih (q ++ newL) (processDeps (adj node) (ind, q)).1 (res ++ [node]) hInv'
      refine ⟨qf, indf, hInvf, ?_⟩
      intro hlen
      apply hfuelf
      simp only [List.length_append, List.length_singleton]
      omega

theorem kahnPhase_spec (children : List String) (deps : String → List String)
    (hnd : children.Nodup) :
    ∃ indf, KahnInv children (buildGraph children deps).adj (buildGraph children deps).ind
      indf [] (kahnPhase children deps) := by
  have hadj_mem := buildGraph_adj_mem children deps
  have hadj_nil := buildGraph_adj_nil children deps
  have hcount := buildGraph_ind_count children deps hnd
  have hzero_no_in : ∀ v, (buildGraph children deps).ind v = 0 →
      ∀ u, v ∉ (buildGraph children deps).adj u := by
    intro v hv u hmem
    by_cases hu : u ∈ children
    · have h0 : countIn children (buildGraph children deps).adj v = 0 := by
        have hc := hcount v
        rw [hv] at hc
        exact_mod_cast hc.symm
      have := List.sum_eq_zero_iff.mp h0
      have hcnt := this (((buildGraph children deps).adj u).count v)
        (List.mem_map.mpr ⟨u, hu, rfl⟩)
      rw [List.count_eq_zero] at hcnt
      exact hcnt hmem
    · rw [hadj_nil u hu] at hmem
      exact absurd hmem (List.not_mem_nil v)
  have hInv0 : KahnInv children (buildGraph children deps).adj
      (buildGraph children deps).ind (buildGraph children deps).ind
      (children.filter (fun cp => decide ((buildGraph children deps).ind cp = 0))) [] := by
    refine ⟨?_, ?_, ?_, ?_, ?_, ?_, ?_⟩
    · simpa using hnd.filter _
    · intro x hx
      simp only [List.nil_append] at hx
      exact List.mem_of_mem_filter hx
    · intro x hx
      simp only [List.nil_append] at hx
      have := List.of_mem_filter hx
      simp only [decide_eq_true_eq] at this
      omega
    · intro v
      simp [countIn]
    · intro v hv u hvu
      have := List.of_mem_filter hv
      simp only [decide_eq_true_eq] at this
      exact absurd hvu (hzero_no_in v this u)
    · intro v hvc hvq
      simp only [List.nil_append] at hvq
      have hne : ¬ ((buildGraph children deps).ind v = 0) := by
        intro h0
        exact hvq (List.mem_filter.mpr ⟨hvc, by simp [h0]⟩)
      have hge : (0 : Int) ≤ (buildGraph children deps).ind v := by
        rw [hcount v]
        positivity
      omega
    · intro v hv
      exact absurd hv (List.not_mem_nil v)
  obtain ⟨qf, indf, hInvf, hfuel⟩ :=
    kahn_master children (buildGraph children deps).adj (buildGraph children deps).ind
      hnd hadj_mem hadj_nil hcount (children.length + 1)
      (children.filter (fun cp => decide ((buildGraph children deps).ind cp = 0)))
      (buildGraph children deps).ind [] hInv0
  have hqf : qf = [] := hfuel (by simp)
  subst hqf
  exact ⟨indf, hInvf⟩

theorem kahnPhase_facts (children : List String) (deps : String → List String)
    (hnd : children.Nodup) :
    (kahnPhase children deps).Nodup ∧
    (∀ x ∈ kahnPhase children deps, x ∈ children) ∧
    (∀ v ∈ kahnPhase children deps, ∀ u, v ∈ adjOf children deps u →
      before u v (kahnPhase children deps)) ∧
    (∀ v ∈ children, v ∉ kahnPhase children deps →
      0 < countIn (children.filter (fun x => decide (x ∉ kahnPhase children deps)))
        (adjOf children deps) v) := by
  obtain ⟨indf, h1, h2, _, h4, _, h6, h7⟩ := kahnPhase_spec children deps hnd
  have hknd : (kahnPhase children deps).Nodup := by simpa using h1
  have hksub : ∀ x ∈ kahnPhase children deps, x ∈ children := by
    intro x hx
    exact h2 x (by simp [hx])
  refine ⟨hknd, hksub, h7, ?_⟩
  intro v hvc hvk
  have hpos : 1 ≤ indf v := h6 v hvc (by simp [hvk])
  have hacc := h4 v
  have hcount := buildGraph_ind_count children deps hnd v
  have hperm := perm_split hnd hknd hksub
  have hsum := countIn_perm (buildGraph children deps).adj v hperm
  rw [countIn_append] at hsum
  rw [hacc, hcount] at hpos
  simp only [adjOf]
  omega

theorem cleanup_eq :
    ∀ (l acc : List String), l.Nodup →
      l.foldl (fun res cp => if cp ∈ res then res else res ++ [cp]) acc
        = acc ++ l.filter (fun x => decide (x ∉ acc)) := by
  intro l
  induction l with
  | nil => intro acc _; simp
  | cons x xs ih =>
    intro acc hnd
    rw [List.foldl_cons, List.filter_cons]
    by_cases hx : x ∈ acc
    · rw [if_pos hx, ih acc hnd.of_cons]
      have hd : (decide (x ∉ acc)) = false := by simp [hx]
      rw [hd]
      simp
    · rw [if_neg hx]
      rw [ih (acc ++ [x]) hnd.of_cons]
      have hfeq : xs.filter (fun y => decide (y ∉ acc ++ [x]))
          = xs.filter (fun y => decide (y ∉ acc)) := by
        apply List.filter_congr
        intro y hy
        have hyx : y ≠ x := by
          intro h
          subst h
          exact (List.nodup_cons.mp hnd).1 hy
        simp [hyx]
      rw [hfeq]
      simp [hx]

/-- C1 (amended: the sibling list is required to be duplicate-free; see the
counterexample `c1_counterexample_duplicate_dropped`).  For every
duplicate-free sibling list and every declared-dependency map — including
maps inducing cyclic or out-of-set dependencies — `sort_children` returns a
permutation of its input, equal to the cleanly-sorted Kahn-phase output
followed by the siblings the elimination loop never emitted (those that
never reach zero in-degree), kept in their original declaration order. -/
theorem c1_sort_children_permutation (children : List String)
    (deps : String → List String) (hnd : children.Nodup) :
    (sort_children children deps).Perm children ∧
    sort_children children deps
      = kahnPhase children deps
        ++ children.filter (fun x => decide (x ∉ kahnPhase children deps)) := by
  obtain ⟨hknd, hksub, _, _⟩ := kahnPhase_facts children deps hnd
  have heq := cleanup_eq children (kahnPhase children deps) hnd
  refine ⟨?_, heq⟩
  rw [sort_children, heq]
  exact (perm_split hnd hknd hksub).symm

/-- Witness for `c1_sort_children_permutation` at a concrete cyclic input
(`a` and `b` depend on each other, `c` is clean). -/
theorem c1_witness :
    (["r/a", "r/b", "r/c"] : List String).Nodup ∧
    ((sort_children ["r/a", "r/b", "r/c"]
        (fun n => if n = "a" then ["b"] else if n = "b" then ["a"] else [])).Perm
      ["r/a", "r/b", "r/c"] ∧
     sort_children ["r/a", "r/b", "r/c"]
        (fun n => if n = "a" then ["b"] else if n = "b" then ["a"] else [])
      = kahnPhase ["r/a", "r/b", "r/c"]
          (fun n => if n = "a" then ["b"] else if n = "b" then ["a"] else [])
        ++ (["r/a", "r/b", "r/c"] : List String).filter
            (fun x => decide (x ∉ kahnPhase ["r/a", "r/b", "r/c"]
              (fun n => if n = "a" then ["b"] else if n = "b" then ["a"] else [])))) :=
  ⟨by decide, c1_sort_children_permutation _ _ (by decide)⟩

/-- C1 counterexample: with a duplicated sibling path that participates in a
self-cycle, `sort_children` drops one copy, so the output is not a
permutation of the input list.  This refutes the claim as stated for
arbitrary sibling lists. -/
theorem c1_counterexample_duplicate_dropped :
    ¬ (sort_children ["r/a", "r/a"] (fun n => if n = "a" then ["a"] else [])).Perm
      ["r/a", "r/a"] := by
  intro h
  have hlen := h.length_eq
  have hval : sort_children ["r/a", "r/a"] (fun n => if n = "a" then ["a"] else [])
      = ["r/a"] := by decide
  rw [hval] at hlen
  simp at hlen

/-- C2 (amended: the sibling list is required to be duplicate-free; see the
counterexample `c2_counterexample_duplicate_order`).  For every
duplicate-free sibling list whose declared dependencies, restricted to the
sibling set, are acyclic (witnessed by a rank function increasing along
dependency edges), `sort_children` places every dependent before each of its
dependencies; in particular, for siblings `a`, `b` where `b` declares a
dependency on `a`, the output is `[b, a]`. -/
theorem c2_sort_children_topological :
    (∀ (children : List String) (deps : String → List String), children.Nodup →
      (∃ r : String → Nat, ∀ u ∈ children, ∀ v ∈ adjOf children deps u, r u < r v) →
      ∀ u ∈ children, ∀ v ∈ adjOf children deps u,
        before u v (sort_children children deps)) ∧
    sort_children ["root/a", "root/b"] (fun n => if n = "b" then ["a"] else [])
      = ["root/b", "root/a"] := by
  constructor
  · rintro children deps hnd ⟨r, hr⟩ u hu v hv
    obtain ⟨hknd, hksub, hord, hcompl⟩ := kahnPhase_facts children deps hnd
    have hrem : children.filter (fun x => decide (x ∉ kahnPhase children deps)) = [] := by
      by_contra hne
      obtain ⟨v0, hv0⟩ := List.exists_mem_of_ne_nil _ hne
      have hnonempty :
          (children.filter (fun x => decide (x ∉ kahnPhase children deps))).toFinset.Nonempty :=
        ⟨v0, List.mem_toFinset.mpr hv0⟩
      obtain ⟨w0, hw0, hmin⟩ := Finset.exists_min_image _ r hnonempty
      rw [List.mem_toFinset] at hw0
      have hw0c : w0 ∈ children := List.mem_of_mem_filter hw0
      have hw0k : w0 ∉ kahnPhase children deps := by
        have := List.of_mem_filter hw0
        simpa using this
      have hcnt := hcompl w0 hw0c hw0k
      obtain ⟨u0, hu0, hu0v⟩ := countIn_pos_exists hcnt
      have hu0c : u0 ∈ children := List.mem_of_mem_filter hu0
      have hlt := hr u0 hu0c w0 hu0v
      have hle := hmin u0 (List.mem_toFinset.mpr hu0)
      omega
    have hsort : sort_children children deps = kahnPhase children deps := by
      rw [sort_children, cleanup_eq children _ hnd, hrem, List.append_nil]
    have hvc : v ∈ children := buildGraph_adj_mem children deps u v hv
    have hvk : v ∈ kahnPhase children deps := by
      by_contra hvk
      have hvf : v ∈ children.filter (fun x => decide (x ∉ kahnPhase children deps)) :=
        List.mem_filter.mpr ⟨hvc, by simpa using hvk⟩
      rw [hrem] at hvf
      exact absurd hvf (List.not_mem_nil v)
    rw [hsort]
    exact hord v hvk u hv
  · decide

/-- Witness for `c2_sort_children_topological` at the spec's concrete
scenario (`b` depends on `a`): the dependent `b` is placed before `a`. -/
theorem c2_witness :
    (["root/a", "root/b"] : List String).Nodup ∧
    before "root/b" "root/a"
      (sort_children ["root/a", "root/b"] (fun n => if n = "b" then ["a"] else [])) :=
  ⟨by decide,
   c2_sort_children_topological.1 ["root/a", "root/b"]
     (fun n => if n = "b" then ["a"] else []) (by decide)
     ⟨fun s => if s = "root/a" then 1 else 0, by decide⟩
     "root/b" (by decide) "root/a" (by decide)⟩

/-- C2 counterexample: with a duplicated sibling path, even acyclic declared
dependencies (rank-increasing along every edge) can make `sort_children`
emit a dependency before one of its dependents: here `r/u` depends on
`r/v`, yet the output is `[r/w, r/w, r/x, r/v, r/u]` with `r/v` before
`r/u`.  This refutes the claim as stated for arbitrary sibling lists. -/
theorem c2_counterexample_duplicate_order :
    (∃ r : String → Nat, ∀ u ∈ (["r/w", "r/w", "r/x", "r/u", "r/v"] : List String),
        ∀ v ∈ adjOf ["r/w", "r/w", "r/x", "r/u", "r/v"]
            (fun n => if n = "w" then ["v"] else if n = "x" then ["u"]
                      else if n = "u" then ["v"] else []) u, r u < r v) ∧
    "r/v" ∈ adjOf ["r/w", "r/w", "r/x", "r/u", "r/v"]
        (fun n => if n = "w" then ["v"] else if n = "x" then ["u"]
                  else if n = "u" then ["v"] else []) "r/u" ∧
    ¬ before "r/u" "r/v"
        (sort_children ["r/w", "r/w", "r/x", "r/u", "r/v"]
          (fun n => if n = "w" then ["v"] else if n = "x" then ["u"]
                    else if n = "u" then ["v"] else [])) := by
  refine ⟨⟨fun s => if s = "r/v" then 2 else if s = "r/u" then 1 else 0, by decide⟩,
    by decide, ?_⟩
  intro h
  have hb := (before_iff _ _ _).mp h
  have hf : beforeB "r/u" "r/v"
      (sort_children ["r/w", "r/w", "r/x", "r/u", "r/v"]
        (fun n => if n = "w" then ["v"] else if n = "x" then ["u"]
                  else if n = "u" then ["v"] else [])) = false := by decide
  rw [hf] at hb
  exact Bool.false_ne_true hb

theorem projectModuleEdges_mem_aux :
    ∀ (fes : List ((String × String) × (String × String)))
      (s0 : Finset (String × String)) (p : String × String),
      p ∈ fes.foldl
          (fun s e => if e.1.1 = e.2.1 then s else insert (e.1.1, e.2.1) s) s0
        ↔ p ∈ s0 ∨ ∃ e ∈ fes, e.1.1 ≠ e.2.1 ∧ p = (e.1.1, e.2.1) := by
  intro fes
  induction fes with
  | nil => intro s0 p; simp
  | cons e rest ih =>
    intro s0 p
    rw [List.foldl_cons]
    by_cases he : e.1.1 = e.2.1
    · rw [if_pos he, ih]
      constructor
      · rintro (h | h)
        · exact Or.inl h
        · obtain ⟨e', he', h1, h2⟩ := h
          exact Or.inr ⟨e', by simp [he'], h1, h2⟩
      · rintro (h | ⟨e', he', h1, h2⟩)
        · exact Or.inl h
        · rcases List.mem_cons.mp he' with rfl | he''
          · exact absurd he h1
          · exact Or.inr ⟨e', he'', h1, h2⟩
    · rw [if_neg he, ih]
      constructor
      · rintro (h | h)
        · rcases Finset.mem_insert.mp h with h | h
          · exact Or.inr ⟨e, by simp, he, h⟩
          · exact Or.inl h
        · obtain ⟨e', he', h1, h2⟩ := h
          exact Or.inr ⟨e', by simp [he'], h1, h2⟩
      · rintro (h | ⟨e', he', h1, h2⟩)
        · exact Or.inl (Finset.mem_insert.mpr (Or.inr h))
        · rcases List.mem_cons.mp he' with rfl | he''
          · exact Or.inl (Finset.mem_insert.mpr (Or.inl h2))
          · exact Or.inr ⟨e', he'', h1, h2⟩

/-- C7: a pair of module paths is a module edge of the snapshot exactly when
some collected function edge has its endpoints in those two distinct
modules; same-module function edges are kept in `function_edges` (which the
snapshot passes through unfiltered) but contribute nothing to
`module_edges`, and `module_edges` is a set, hence duplicate-free. -/
theorem c7_module_edges_exact (t : FTree) (rootDir : List String)
    (rootName : String) (fuel : Nat) (p : String × String) :
    p ∈ (parse_speck_tree t rootDir rootName fuel).module_edges ↔
      ∃ e ∈ (parse_speck_tree t rootDir rootName fuel).function_edges,
        e.1.1 ≠ e.2.1 ∧ p = (e.1.1, e.2.1) := by
  have h := projectModuleEdges_mem_aux
    (parse_module fuel t rootDir rootName 0 ⟨[], []⟩).edges ∅ p
  simp only [Finset.not_mem_empty, false_or] at h
  exact h

/-- C6: the claim is half right about the code.  Parsing a declared child
whose `.speck` file is missing does terminate that branch silently and
leaves the parent's children list containing the child's path — but the
returned modules map contains NO entry for the missing child (the source
returns before `modules[mod_path]` is assigned), contradicting the claim
(and the client's `buildTree`, which looks every listed child up in the
modules map).  First conjunct: a missing file leaves the parse state
unchanged, for any fuel.  Remaining conjuncts evaluate the failing input
`fsC6` (root declares `mod a { }`, `a/a.speck` missing): no `"root/a"`
entry exists, while the root entry still lists `"root/a"` as a child. -/
theorem c6_missing_child_silent_but_unrecorded :
    (∀ (fuel : Nat) (sub : List (String × FTree)) (dir : List String)
       (mp : String) (d : Nat) (st : PState),
      parse_module fuel (FTree.node none sub) dir mp d st = st) ∧
    (parse_speck_tree fsC6 ["root"] "root" 2).modules.find?
        (fun q => decide (q.1 = "root/a")) = none ∧
    ((parse_speck_tree fsC6 ["root"] "root" 2).modules.find?
        (fun q => decide (q.1 = "root"))).map (fun q => q.2.children)
      = some ["root/a"] := by
  refine ⟨?_, by decide, by decide⟩
  intro fuel sub dir mp d st
  cases fuel <;> rfl

theorem le_foldl_max (l : List ℚ) : ∀ init : ℚ, init ≤ l.foldl max init := by
  induction l with
  | nil => intro init; simp
  | cons a l ih =>
    intro init
    calc init ≤ max init a := le_max_left _ _
      _ ≤ l.foldl max (max init a) := ih _

theorem foldl_max_of_mem (l : List ℚ) :
    ∀ (init a : ℚ), a ∈ l → a ≤ l.foldl max init := by
  induction l with
  | nil => intro _ a ha; exact absurd ha (List.not_mem_nil a)
  | cons b l ih =>
    intro init a ha
    rcases List.mem_cons.mp ha with rfl | ha'
    · calc a ≤ max init a := le_max_right _ _
        _ ≤ l.foldl max (max init a) := le_foldl_max _ _
    · exact ih _ a ha'

theorem fnArea_nonneg (fns : List String) : 0 ≤ fnArea fns := by
  rw [fnArea]
  by_cases h : fns.length > 0
  · rw [if_pos h]
    have h1 : (1 : ℚ) ≤ (fns.length : ℚ) := by exact_mod_cast h
    rw [FN_H, FN_GAP]
    nlinarith
  · rw [if_neg h]

theorem colH_nonneg (cs : List ZNode) : 0 ≤ colH cs :=
  le_foldl_max _ 0

theorem colH_ge {cs : List ZNode} {c : ZNode} (hc : c ∈ cs) : c.h ≤ colH cs :=
  foldl_max_of_mem _ 0 c.h (List.mem_map.mpr ⟨c, hc, rfl⟩)

theorem computeSize_w_ge (m : String → ℚ → ℚ) (t : SNode) :
    MIN_MOD_W + 2 * PAD ≤ (computeSize m t).w := by
  cases t with
  | mk name path depth fns cs =>
    rw [computeSize]
    simp only [ZNode.w]
    have : MIN_MOD_W ≤ max (max (max (m name LABEL_SIZE + 8)
        (fns.foldl (fun mw f => max mw (m f FN_SIZE + 2 * FN_PAD_X)) 0))
        (rowW (cs.attach.map (fun c => computeSize m c.1)))) MIN_MOD_W :=
      le_max_right _ _
    linarith

theorem rowW_nonneg {cs : List ZNode} (hw : ∀ c ∈ cs, 0 ≤ c.w) : 0 ≤ rowW cs := by
  rw [rowW]
  have hsum : 0 ≤ (cs.map ZNode.w).sum := by
    apply List.sum_nonneg
    intro a ha
    obtain ⟨c, hc, rfl⟩ := List.mem_map.mp ha
    exact hw c hc
  have hgap : (0 : ℚ) ≤ if cs.length > 1 then ((cs.length : ℚ) - 1) * MOD_GAP else 0 := by
    by_cases h : cs.length > 1
    · rw [if_pos h]
      have h1 : (2 : ℚ) ≤ (cs.length : ℚ) := by exact_mod_cast h
      rw [ MOD_GAP]
      nlinarith
    · rw [if_neg h]
  exact add_nonneg hsum hgap

theorem rowW_one (c : ZNode) : rowW [c] = c.w := by
  simp [rowW]

theorem rowW_cons2 (c g : ZNode) (gs : List ZNode) :
    rowW (c :: g :: gs) = c.w + MOD_GAP + rowW (g :: gs) := by
  simp only [rowW, List.map_cons, List.sum_cons, List.length_cons]
  have h1 : gs.length + 1 + 1 > 1 := by omega
  rw [if_pos h1]
  by_cases h2 : gs.length + 1 > 1
  · rw [if_pos h2]
    push_cast
    ring
  · have hgs : gs.length = 0 := by omega
    rw [if_neg h2, hgs]
    push_cast
    ring

theorem fnArea_head_le (f : String) (rest : List String) :
    FN_H ≤ fnArea (f :: rest) := by
  rw [fnArea, if_pos (by simp)]
  simp only [List.length_cons]
  have h0 : (0 : ℚ) ≤ (rest.length : ℚ) := by positivity
  rw [FN_H, FN_GAP]
  push_cast
  nlinarith

theorem fnArea_cons2 (f g : String) (gs : List String) :
    fnArea (f :: g :: gs) = FN_H + FN_GAP + fnArea (g :: gs) := by
  rw [fnArea, fnArea, if_pos (by simp), if_pos (by simp)]
  simp only [List.length_cons]
  rw [FN_H, FN_GAP]
  push_cast
  ring

theorem fnBoxesFrom_bounds (innerX innerW : ℚ) (path : String) :
    ∀ (fns : List String) (fnY : ℚ), ∀ e ∈ fnBoxesFrom innerX innerW path fnY fns,
      e.2.x = innerX ∧ e.2.w = innerW ∧ e.2.h = FN_H ∧ fnY ≤ e.2.y ∧
      e.2.y + FN_H ≤ fnY + fnArea fns := by
  intro fns
  induction fns with
  | nil =>
    intro fnY e he
    rw [fnBoxesFrom] at he
    exact absurd he (List.not_mem_nil e)
  | cons f rest ih =>
    intro fnY e he
    rw [fnBoxesFrom] at he
    rcases List.mem_cons.mp he with rfl | he'
    · refine ⟨rfl, rfl, rfl, le_refl _, ?_⟩
      have := fnArea_head_le f rest
      show fnY + FN_H ≤ fnY + fnArea (f :: rest)
      linarith
    · obtain ⟨h1, h2, h3, h4, h5⟩ := ih (fnY + FN_H + FN_GAP) e he'
      have hFH : FN_H = 30 := rfl
      have hFG : FN_GAP = 10 := rfl
      refine ⟨h1, h2, h3, by linarith [hFH, hFG], ?_⟩
      cases rest with
      | nil =>
        rw [fnBoxesFrom] at he'
        exact absurd he' (List.not_mem_nil e)
      | cons g gs =>
        rw [fnArea_cons2]
        linarith

theorem placeChildren_mem :
    ∀ (cs : List ZNode) (cx cy : ℚ), (∀ c ∈ cs, 0 ≤ c.w) →
      ∀ p ∈ placeChildren cx cy cs,
        ∃ c ∈ cs, ∃ cx', p = computePositions c cx' cy ∧ cx ≤ cx' ∧
          cx' + c.w ≤ cx + rowW cs := by
  intro cs
  induction cs with
  | nil =>
    intro cx cy _ p hp
    rw [placeChildren] at hp
    exact absurd hp (List.not_mem_nil p)
  | cons c rest ih =>
    intro cx cy hw p hp
    rw [placeChildren] at hp
    have hMG : MOD_GAP = 60 := rfl
    rcases List.mem_cons.mp hp with rfl | hp'
    · refine ⟨c, by simp, cx, rfl, le_refl _, ?_⟩
      cases rest with
      | nil => rw [rowW_one]
      | cons g gs =>
        rw [rowW_cons2]
        have h1 : 0 ≤ rowW (g :: gs) := rowW_nonneg (fun d hd => hw d (by simp [hd]))
        linarith
    · obtain ⟨c', hc', cx', rfl, hA, hB⟩ :=
        ih (cx + c.w + MOD_GAP) cy (fun d hd => hw d (by simp [hd])) p hp'
      have hcw : 0 ≤ c.w := hw c (by simp)
      refine ⟨c', by simp [hc'], cx', rfl, by linarith, ?_⟩
      cases rest with
      | nil => exact absurd hc' (List.not_mem_nil c')
      | cons g gs =>
        rw [rowW_cons2]
        linarith

theorem computePositions_box (z : ZNode) (x y : ℚ) :
    (computePositions z x y).box = ⟨x, y, z.w, z.h⟩ := by
  cases z
  rw [computePositions]
  rfl

theorem computePositions_children (name path : String) (depth : Nat)
    (fns : List String) (cs' : List ZNode) (w h fa sg x y : ℚ) :
    (computePositions ⟨name, path, depth, fns, cs', w, h, fa, sg⟩ x y).children
      = placeChildren (x + PAD) (y + HEADER_H + fa + sg) cs' := by
  rw [computePositions]
  rfl

theorem computeSize_eq (m : String → ℚ → ℚ) (name path : String) (depth : Nat)
    (fns : List String) (cs : List SNode) :
    computeSize m ⟨name, path, depth, fns, cs⟩
      = ⟨name, path, depth, fns, cs.attach.map (fun c => computeSize m c.1),
          max (max (max (m name LABEL_SIZE + 8)
              (fns.foldl (fun mw f => max mw (m f FN_SIZE + 2 * FN_PAD_X)) 0))
              (rowW (cs.attach.map (fun c => computeSize m c.1)))) MIN_MOD_W
            + 2 * PAD,
          HEADER_H + fnArea fns
            + (if fnArea fns > 0 ∧ colH (cs.attach.map (fun c => computeSize m c.1)) > 0
               then SECTION_GAP else 0)
            + colH (cs.attach.map (fun c => computeSize m c.1)) + PAD_BOTTOM,
          fnArea fns,
          (if fnArea fns > 0 ∧ colH (cs.attach.map (fun c => computeSize m c.1)) > 0
           then SECTION_GAP else 0)⟩ := by
  rw [computeSize]

theorem goodNode_root (path : String) (fns : List String)
    (ZS : List ZNode) (x y W FA SG CH : ℚ)
    (hw : ∀ c ∈ ZS, 0 ≤ c.w)
    (hrow : rowW ZS ≤ W - 2 * PAD)
    (hFA : FA = fnArea fns)
    (hSG : 0 ≤ SG)
    (hCH : CH = colH ZS) :
    goodNode (PNode.mk path ⟨x, y, W, HEADER_H + FA + SG + CH + PAD_BOTTOM⟩
      (fnBoxesFrom (x + PAD) (W - 2 * PAD) path (y + HEADER_H) fns)
      (placeChildren (x + PAD) (y + HEADER_H + FA + SG) ZS)) := by
  have hP : PAD = 30 := rfl
  have hPB : PAD_BOTTOM = 50 := rfl
  have hHH : HEADER_H = 38 := rfl
  have hFH : FN_H = 30 := rfl
  have hFAnn : 0 ≤ fnArea fns := fnArea_nonneg fns
  have hCHnn : 0 ≤ colH ZS := colH_nonneg ZS
  refine ⟨?_, ?_⟩
  · intro e he
    obtain ⟨h1, h2, h3, h4, h5⟩ :=
      fnBoxesFrom_bounds (x + PAD) (W - 2 * PAD) path fns (y + HEADER_H) e he
    refine ⟨?_, ?_, ?_, ?_⟩
    · show x ≤ e.2.x
      rw [h1]
      linarith
    · show y ≤ e.2.y
      linarith
    · show e.2.x + e.2.w ≤ x + W
      rw [h1, h2]
      linarith
    · show e.2.y + e.2.h ≤ y + (HEADER_H + FA + SG + CH + PAD_BOTTOM)
      rw [h3]
      rw [hFA, hCH]
      linarith
  · intro cp hcp
    obtain ⟨c, hc, cx', rfl, hA, hB⟩ :=
      placeChildren_mem ZS (x + PAD) (y + HEADER_H + FA + SG) hw cp hcp
    rw [computePositions_box]
    have hch : c.h ≤ colH ZS := colH_ge hc
    refine ⟨?_, ?_, ?_, ?_⟩
    · show x ≤ cx'
      linarith
    · show y ≤ y + HEADER_H + FA + SG
      rw [hFA]
      linarith
    · show cx' + c.w ≤ x + W
      linarith
    · show y + HEADER_H + FA + SG + c.h ≤ y + (HEADER_H + FA + SG + CH + PAD_BOTTOM)
      rw [hCH]
      linarith

theorem c3_aux :
    ∀ (n : Nat) (t : SNode), sizeOf t < n →
      ∀ (m : String → ℚ → ℚ) (x y : ℚ) (q : PNode),
        Subnode q (computePositions (computeSize m t) x y) → goodNode q := by
  intro n
  induction n with
  | zero => intro t ht; omega
  | succ n ih =>
    intro t ht m x y q hsub
    cases t with
    | mk name path depth fns cs =>
      rw [computeSize_eq] at hsub
      have hwZS : ∀ c ∈ cs.attach.map (fun c => computeSize m c.1), 0 ≤ ZNode.w c := by
        intro c hcmem
        obtain ⟨tc, _, rfl⟩ := List.mem_map.mp hcmem
        have := computeSize_w_ge m tc.1
        have hM : MIN_MOD_W = 80 := rfl
        have hP : PAD = 30 := rfl
        linarith
      cases hsub with
      | refl =>
        rw [computePositions]
        apply goodNode_root path fns _ x y _ _ _ _ hwZS ?_ rfl ?_ rfl
        · have hle : rowW (cs.attach.map (fun c => computeSize m c.1))
              ≤ max (max (max (m name LABEL_SIZE + 8)
                  (fns.foldl (fun mw f => max mw (m f FN_SIZE + 2 * FN_PAD_X)) 0))
                  (rowW (cs.attach.map (fun c => computeSize m c.1)))) MIN_MOD_W :=
            le_trans (le_max_right _ _) (le_max_left _ _)
          linarith
        · by_cases h : fnArea fns > 0 ∧ colH (cs.attach.map (fun c => computeSize m c.1)) > 0
          · rw [if_pos h]
            norm_num [SECTION_GAP]
          · rw [if_neg h]
      | @child cp _ hc hq =>
        rw [computePositions_children] at hc
        have hc' : cp ∈ placeChildren (x + PAD)
            (y + HEADER_H + fnArea fns
              + (if fnArea fns > 0 ∧ colH (cs.attach.map (fun c => computeSize m c.1)) > 0
                 then SECTION_GAP else 0))
            (cs.attach.map (fun c => computeSize m c.1)) := hc
        obtain ⟨cz, hcz, cx', rfl, _, _⟩ :=
          placeChildren_mem _ _ _ hwZS cp hc'
        obtain ⟨tc, _, rfl⟩ := List.mem_map.mp hcz
        have hsz : sizeOf tc.1 < sizeOf cs := List.sizeOf_lt_of_mem tc.2
        have hsz2 : sizeOf tc.1 < n := by
          simp only [SNode.mk.sizeOf_spec] at ht
          omega
        exact ih tc.1 hsz2 m cx' _ q hq

/-- C3: after a full layout pass (`computeSize` then `computePositions` from
the root), every module box in the positioned tree geometrically contains
each of its own function boxes and the entire box of each of its children.
The statement quantifies over arbitrary trees, arbitrary text-measurement
functions and arbitrary origins, and does not mention the Expanded-Set:
layout never reads it, so containment holds for every Expanded-Set. -/
theorem c3_layout_containment (m : String → ℚ → ℚ) (t : SNode) (x y : ℚ)
    (q : PNode) (hq : Subnode q (computePositions (computeSize m t) x y)) :
    goodNode q :=
  c3_aux (sizeOf t + 1) t (by omega) m x y q hq

/-- Witness for `c3_layout_containment`: the root node of a one-module,
one-function tree laid out with the zero measurement function. -/
theorem c3_witness :
    goodNode (computePositions
      (computeSize (fun _ _ => 0) ⟨"root", "root", 0, ["main"], []⟩) 0 0) :=
  c3_layout_containment (fun _ _ => 0) ⟨"root", "root", 0, ["main"], []⟩ 0 0 _
    (Subnode.refl _)

theorem firstCollapsed_eq_find (exp : List (List String)) :
    ∀ (rest acc : List String),
      firstCollapsed exp acc rest
        = (accPrefixes acc rest).find? (fun p => decide (p ∉ exp)) := by
  intro rest
  induction rest with
  | nil =>
    intro acc
    rw [firstCollapsed, accPrefixes]
    by_cases h : acc ∈ exp
    · rw [if_pos h]
      rw [List.find?_cons_of_neg _ (by simpa using h)]
      rfl
    · rw [if_neg h]
      rw [List.find?_cons_of_pos _ (by simpa using h)]
  | cons s rest ih =>
    intro acc
    rw [firstCollapsed, accPrefixes]
    by_cases h : acc ∈ exp
    · rw [if_pos h, ih, List.find?_cons_of_neg _ (by simpa using h)]
    · rw [if_neg h, List.find?_cons_of_pos _ (by simpa using h)]

theorem accPrefixes_general :
    ∀ (rest acc : List String),
      accPrefixes acc rest
        = (List.range (rest.length + 1)).map (fun i => acc ++ rest.take i) := by
  intro rest
  induction rest with
  | nil => intro acc; simp [accPrefixes, List.range_succ]
  | cons s rest ih =>
    intro acc
    rw [accPrefixes, ih]
    have hr : List.range (rest.length + 1 + 1)
        = 0 :: (List.range (rest.length + 1)).map (· + 1) :=
      List.range_succ_eq_map _
    simp only [List.length_cons, hr, List.map_cons, List.map_map, List.take_zero,
      List.append_nil]
    congr 1
    apply List.map_congr_left
    intro i _
    simp [List.take_succ_cons, List.append_assoc]

theorem chainPrefixes_cons (s : String) (rest : List String) :
    chainPrefixes (s :: rest) = accPrefixes [s] rest := by
  rw [chainPrefixes, accPrefixes_general]
  simp only [List.length_cons]
  apply List.map_congr_left
  intro i _
  simp [List.take_succ_cons]

theorem visWalk_append (exp : List (List String)) :
    ∀ (as acc : List String) (s : String),
      visWalk exp acc (as ++ [s])
        = (visWalk exp acc as && decide ((acc ++ as) ∈ exp)) := by
  intro as
  induction as with
  | nil =>
    intro acc s
    simp [visWalk]
  | cons a as ih =>
    intro acc s
    rw [List.cons_append, visWalk, ih]
    rw [visWalk]
    simp [Bool.and_assoc, List.append_assoc]

theorem isModVisible_snoc (exp : List (List String)) (a : String)
    (as : List String) (s : String) :
    isModVisible exp ((a :: as) ++ [s])
      = (isModVisible exp (a :: as) && decide ((a :: as) ∈ exp)) := by
  rw [List.cons_append, isModVisible, isModVisible, visWalk_append]
  rfl

theorem firstCollapsed_visible (exp : List (List String)) :
    ∀ (rest acc : List String), acc ≠ [] → isModVisible exp acc = true →
      (∀ p, firstCollapsed exp acc rest = some p → isModVisible exp p = true) ∧
      (firstCollapsed exp acc rest = none →
        isModVisible exp (acc ++ rest) = true ∧ (acc ++ rest) ∈ exp) := by
  intro rest
  induction rest with
  | nil =>
    intro acc hne hacc
    constructor
    · intro p hp
      rw [firstCollapsed] at hp
      by_cases h : acc ∈ exp
      · rw [if_pos h] at hp; cases hp
      · rw [if_neg h] at hp
        injection hp with h2
        subst h2
        exact hacc
    · intro hp
      rw [firstCollapsed] at hp
      by_cases h : acc ∈ exp
      · simpa using ⟨hacc, h⟩
      · rw [if_neg h] at hp; cases hp
  | cons s rest ih =>
    intro acc hne hacc
    by_cases h : acc ∈ exp
    · have hacc' : isModVisible exp (acc ++ [s]) = true := by
        obtain ⟨a, as, rfl⟩ := List.exists_cons_of_ne_nil hne
        rw [isModVisible_snoc]
        simp [hacc, h]
      have hV := ih (acc ++ [s]) (by simp) hacc'
      constructor
      · intro p hp
        rw [firstCollapsed, if_pos h] at hp
        exact hV.1 p hp
      · intro hp
        rw [firstCollapsed, if_pos h] at hp
        have h2 := hV.2 hp
        rw [List.append_assoc] at h2
        simpa using h2
    · constructor
      · intro p hp
        rw [firstCollapsed, if_neg h] at hp
        injection hp with h2
        subst h2
        exact hacc
      · intro hp
        rw [firstCollapsed, if_neg h] at hp
        cases hp

/-- C10: the box `resolveVisible` returns is itself visible: a returned
module path has all its strict ancestors in the Expanded-Set
(`isModVisible`), and a returned function identity has its owning module
reachable and expanded (`isFnVisible`).  The hypothesis `modPath ≠ []`
reflects that `split('/')` always yields at least one segment. -/
theorem c10_resolved_endpoint_visible (exp : List (List String))
    (modPath : List String) (fn : String) (hne : modPath ≠ []) :
    (∀ p, resolveVisible exp modPath fn = Endpoint.mod p →
      isModVisible exp p = true) ∧
    (∀ p f2, resolveVisible exp modPath fn = Endpoint.fn p f2 →
      isFnVisible exp p f2 = true) := by
  obtain ⟨s, rest, rfl⟩ := List.exists_cons_of_ne_nil hne
  have hroot : isModVisible exp [s] = true := rfl
  have hV := firstCollapsed_visible exp rest [s] (by simp) hroot
  constructor
  · intro p hp
    rw [resolveVisible] at hp
    cases hfc : firstCollapsed exp [s] rest with
    | some q =>
      rw [hfc] at hp
      injection hp with h2
      subst h2
      exact hV.1 _ hfc
    | none =>
      rw [hfc] at hp
      cases hp
  · intro p f2 hp
    rw [resolveVisible] at hp
    cases hfc : firstCollapsed exp [s] rest with
    | some q =>
      rw [hfc] at hp
      cases hp
    | none =>
      rw [hfc] at hp
      injection hp with h1 h2
      subst h1
      subst h2
      have h3 := hV.2 hfc
      rw [show ([s] ++ rest) = s :: rest from rfl] at h3
      rw [isFnVisible]
      simp [h3.1, h3.2]

/-- Witness for `c10_resolved_endpoint_visible`: with only the root
expanded, the endpoint `r/a::f` resolves to the module `r/a`, which is
indeed visible. -/
theorem c10_witness :
    isModVisible [[("r" : String)]] ["r", "a"] = true :=
  (c10_resolved_endpoint_visible [["r"]] ["r", "a"] "f" (by decide)).1
    ["r", "a"] (by decide)

/-- C4: endpoint resolution returns the first module on the
root-to-owning-module chain (shortest prefix first) that is not in the
Expanded-Set, and the function identity itself when every module on that
chain is expanded; and `updateArrows` excludes every function edge whose
two resolved endpoints coincide — each rendered pair has distinct source
and target. -/
theorem c4_resolution_first_collapsed_and_selfloop_suppression :
    (∀ (exp : List (List String)) (s : String) (rest : List String) (fn : String),
      resolveVisible exp (s :: rest) fn
        = match (chainPrefixes (s :: rest)).find? (fun p => decide (p ∉ exp)) with
          | some p => Endpoint.mod p
          | none => Endpoint.fn (s :: rest) fn) ∧
    (∀ (exp : List (List String))
       (edges : List ((List String × String) × (List String × String)))
       (e : Endpoint × Endpoint), e ∈ resolvedEdgePairs exp edges → e.1 ≠ e.2) := by
  constructor
  · intro exp s rest fn
    rw [resolveVisible, chainPrefixes_cons, ← firstCollapsed_eq_find]
  · intro exp edges
    have haux : ∀ (l : List ((List String × String) × (List String × String)))
        (acc : List (Endpoint × Endpoint)), (∀ e ∈ acc, e.1 ≠ e.2) →
        ∀ e ∈ l.foldl
          (fun acc e =>
            let rs := resolveVisible exp e.1.1 e.1.2
            let rt := resolveVisible exp e.2.1 e.2.2
            if rs = rt then acc
            else if (rs, rt) ∈ acc then acc else acc ++ [(rs, rt)]) acc,
          e.1 ≠ e.2 := by
      intro l
      induction l with
      | nil => intro acc hacc; exact hacc
      | cons ed rest ih =>
        intro acc hacc
        rw [List.foldl_cons]
        apply ih
        intro e he
        by_cases h1 : resolveVisible exp ed.1.1 ed.1.2 = resolveVisible exp ed.2.1 ed.2.2
        · rw [if_pos h1] at he
          exact hacc e he
        · rw [if_neg h1] at he
          by_cases h2 : (resolveVisible exp ed.1.1 ed.1.2,
              resolveVisible exp ed.2.1 ed.2.2) ∈ acc
          · rw [if_pos h2] at he
            exact hacc e he
          · rw [if_neg h2] at he
            rcases List.mem_append.mp he with h | h
            · exact hacc e h
            · rcases List.mem_singleton.mp h with rfl
              exact h1
    exact haux edges [] (by intro e he; exact absurd he (List.not_mem_nil e))

/-- Witness for the self-loop-suppression half of
`c4_resolution_first_collapsed_and_selfloop_suppression`: with only the
root expanded, the edge `r/a::f → r/b::g` resolves to the distinct module
pair `(r/a, r/b)`, which is rendered. -/
theorem c4_witness :
    (Endpoint.mod ["r", "a"] : Endpoint) ≠ Endpoint.mod ["r", "b"] :=
  c4_resolution_first_collapsed_and_selfloop_suppression.2 [["r"]]
    [((["r", "a"], "f"), (["r", "b"], "g"))]
    (Endpoint.mod ["r", "a"], Endpoint.mod ["r", "b"]) (by decide)

theorem properUnder_iff : ∀ (p q : List String),
    properUnder p q = true ↔ ∃ rest, rest ≠ [] ∧ q = p ++ rest := by
  intro p
  induction p with
  | nil =>
    intro q
    cases q with
    | nil =>
      rw [properUnder]
      constructor
      · intro h; cases h
      · rintro ⟨rest, hne, h⟩
        exact absurd h.symm hne
    | cons b q2 =>
      rw [properUnder]
      constructor
      · intro _; exact ⟨b :: q2, by simp, rfl⟩
      · intro _; rfl
  | cons a p2 ih =>
    intro q
    cases q with
    | nil =>
      rw [properUnder]
      constructor
      · intro h; cases h
      · rintro ⟨rest, hne, h⟩
        exact absurd h (by simp)
    | cons b q2 =>
      rw [properUnder]
      rw [Bool.and_eq_true, decide_eq_true_eq, ih]
      constructor
      · rintro ⟨rfl, rest, hne, rfl⟩
        exact ⟨rest, hne, rfl⟩
      · rintro ⟨rest, hne, heq⟩
        rw [List.cons_append] at heq
        injection heq with h1 h2
        exact ⟨h1.symm, rest, hne, h2⟩

/-- C5: when the clicked module is currently expanded, the click handler
removes exactly that module's path and every strict descendant path
(`path ++ rest` for nonempty `rest`, i.e. the string paths starting with
`path + "/"`), leaving every other member of the Expanded-Set unchanged;
and the collapse-all button leaves the Expanded-Set containing exactly the
root path. -/
theorem c5_collapse_removes_descendants_and_collapse_all :
    (∀ (allPaths : List (List String)) (exp : Finset (List String))
       (path : List String) (ctrl : Bool), path ∈ exp →
      ∀ q, q ∈ clickToggle allPaths exp path ctrl ↔
        (q ∈ exp ∧ ¬ (q = path ∨ ∃ rest, rest ≠ [] ∧ q = path ++ rest))) ∧
    (∀ (root q : List String), q ∈ collapseAllClick root ↔ q = root) := by
  constructor
  · intro allPaths exp path ctrl hpath q
    rw [clickToggle, if_pos hpath, Finset.mem_filter]
    rw [properUnder_iff]
  · intro root q
    rw [collapseAllClick]
    simp

/-- Witness for `c5_collapse_removes_descendants_and_collapse_all`:
collapsing `r/a` in `{r, r/a, r/a/b, r/c}` keeps `r/c` and drops `r/a/b`. -/
theorem c5_witness :
    ((["r", "a"] : List String)
        ∈ ({[("r" : String)], ["r", "a"], ["r", "a", "b"], ["r", "c"]}
          : Finset (List String))) ∧
    ((["r", "a", "b"] : List String) ∈ clickToggle []
        ({[("r" : String)], ["r", "a"], ["r", "a", "b"], ["r", "c"]}
          : Finset (List String)) ["r", "a"] false ↔
      ((["r", "a", "b"] : List String)
          ∈ ({[("r" : String)], ["r", "a"], ["r", "a", "b"], ["r", "c"]}
            : Finset (List String)) ∧
        ¬ ((["r", "a", "b"] : List String) = ["r", "a"] ∨
          ∃ rest, rest ≠ [] ∧ (["r", "a", "b"] : List String) = ["r", "a"] ++ rest))) :=
  ⟨by decide,
   c5_collapse_removes_descendants_and_collapse_all.1 []
     ({[("r" : String)], ["r", "a"], ["r", "a", "b"], ["r", "c"]}
       : Finset (List String)) ["r", "a"] false (by decide) ["r", "a", "b"]⟩

/-- C8: `connectionPoints` computes exactly the claim's rule — gaps taken
as 0 on overlap, left/right sides at the boxes' vertical centers when the
horizontal gap is at least the vertical gap, otherwise top/bottom sides at
the midpoint of the horizontal overlap (midpoint of the two centers when
the boxes do not overlap horizontally).  `connectionPointsSpec` is the
claim's wording transcribed; the theorem is the refinement between the
two. -/
theorem c8_connection_side_selection (s t : Box) :
    connectionPoints s t = connectionPointsSpec s t := by
  rw [connectionPoints, connectionPointsSpec]
  have hg : max (t.x - (s.x + s.w)) (max (s.x - (t.x + t.w)) 0)
      = max 0 (max (t.x - (s.x + s.w)) (s.x - (t.x + t.w))) := by
    rw [← max_assoc, max_comm]
  have hv : max (t.y - (s.y + s.h)) (max (s.y - (t.y + t.h)) 0)
      = max 0 (max (t.y - (s.y + s.h)) (s.y - (t.y + t.h))) := by
    rw [← max_assoc, max_comm]
  rw [hg, hv]

/-- C9: layout and routing are deterministic.  In this embedding the two
passes and the path computation are pure functions, faithfully so because
the only mutable state the source touches (`fnBoxes`/`modBoxes`) is reset
by `loadAndRender` before every layout run — `loadLayout` records the
previous render state as a parameter and provably ignores it — and the
router reads nothing but its arguments (no randomness, no routing
history), so recomputing the full path set from an unchanged obstacle set
and edge list yields identical paths. -/
theorem c9_layout_and_routing_deterministic :
    (∀ (prev1 prev2 : Option PNode) (m : String → ℚ → ℚ) (t : SNode) (x y : ℚ),
      loadLayout prev1 m t x y = loadLayout prev2 m t x y) ∧
    (∀ (obstacles : List Obstacle) (boxOf : Endpoint → Option Box)
       (resolved : List (Endpoint × Endpoint)),
      computeAllPaths obstacles boxOf resolved
        = computeAllPaths obstacles boxOf resolved) :=
  ⟨fun _ _ _ _ _ _ => rfl, fun _ _ _ => rfl⟩

end Speck
